import Mathlib

/-!
Verification of the `Walk` function of `govc/cli/walk.go` (govmomi).

`Walk` recursively walks a tree of configuration structures via reflection,
discovers fields whose declared type implements a designated capability
interface, memoizes one canonical instance per concrete capability type in a
`visited` registry, rewires every such field to the canonical instance, and
invokes a caller-supplied visitor on every structure it walks.

Shallow embedding choices:

* A concrete struct type is a `TypeId` (a natural number); a `Schema` maps
  each `TypeId` to its declared field list, mirroring `reflect.Type.Field`.
* Each field's reflection classification is captured by `FieldType`,
  following the exact sequence of checks in the Go source:
  - `plain`: neither the field type nor a pointer to it implements the
    capability interface (ordinary data field, skipped);
  - `byValue`: `reflect.PtrTo(ft).Implements(ifaceType)` holds, i.e. the
    field holds a capability-implementing struct type by value;
  - `ifaceKind`: `ft.Implements(ifaceType)` holds but `ft.Kind()` is not
    `reflect.Ptr` (e.g. an interface-typed field);
  - `capPtr t`: `ft` is a pointer type `*T` implementing the capability,
    `T` being the struct type `t` (`reflect.PtrTo` of a pointer type does
    not implement a non-trivial interface).
* The Go heap of struct instances is an association list from addresses to
  objects; pointer-valued fields hold `Option Addr` (`none` = nil).
* `panic` is modelled as the `WRes.panicked` result carrying the format
  string built by the Go code; a visitor error is `WRes.err`.
* The recursion of the inner `walker` closure is fuel-indexed
  (`WRes.fuelOut` when the fuel runs out); termination for sufficient fuel
  is proved separately.
* The order of visitor invocations is recorded in a `visitLog` ghost field.
-/

namespace GovmomiWalk

abbrev Addr := Nat
abbrev TypeId := Nat

/-- Reflection classification of a field's declared type with respect to the
capability interface `ifaceType`; see the check sequence in `Walk`. -/
inductive FieldType where
  | plain
  | byValue
  | ifaceKind
  | capPtr (t : TypeId)
deriving DecidableEq, Repr

/-- One field descriptor, as in `reflect.StructField`: name, `Anonymous`
flag, and the classification of its declared type. -/
structure StructField where
  name : String
  anonymous : Bool
  ftype : FieldType
deriving DecidableEq, Repr

/-- The static type graph: each struct type's declared fields in
declaration order. -/
abbrev Schema := TypeId → List StructField

/-- A runtime field value: opaque data for ordinary fields, a possibly-nil
pointer for pointer fields. -/
inductive Val where
  | data (n : Nat)
  | ptr (a : Option Addr)
deriving DecidableEq, Repr

/-- A struct instance on the heap. -/
structure Obj where
  type : TypeId
  fields : List Val
deriving DecidableEq, Repr

abbrev Heap := List (Addr × Obj)

def lookupH : Heap → Addr → Option Obj
  | [], _ => none
  | (b, o) :: h, a => if b = a then some o else lookupH h a

/-- The `visited` registry: `map[reflect.Type]reflect.Value`, newest entry
first. -/
def lookupV : List (TypeId × Addr) → TypeId → Option Addr
  | [], _ => none
  | (u, c) :: vs, t => if u = t then some c else lookupV vs t

/-- Mutable state threaded through the walk: the heap, the allocation
frontier, the `visited` registry, and the ghost log of visitor calls. -/
structure WState where
  heap : Heap
  nextAddr : Addr
  visited : List (TypeId × Addr)
  visitLog : List Addr
deriving DecidableEq, Repr

/-- The `WalkFn` callback: it receives the node's pointer and returns
`some e` for a non-nil error `e`. -/
abbrev Visitor := Addr → Option Nat

/-- Outcome of a walk: normal completion, a visitor error propagated
unchanged, a Go panic with its message, or fuel exhaustion (an artifact of
the fuel-indexed embedding of the recursive closure). -/
inductive WRes where
  | ok
  | err (e : Nat)
  | panicked (msg : String)
  | fuelOut
deriving DecidableEq, Repr

/-- Zero value of a field, as produced by `reflect.New`. -/
def zeroVal : FieldType → Val
  | .plain => .data 0
  | .byValue => .data 0
  | .ifaceKind => .ptr none
  | .capPtr _ => .ptr none

/-- `reflect.New(ft.Elem())`: a fresh zero-valued instance of struct `t`. -/
def zeroObj (schema : Schema) (t : TypeId) : Obj :=
  ⟨t, (schema t).map (fun f => zeroVal f.ftype)⟩

/-- Overwrite field `i` of an object with a pointer value (`fv.Set`). -/
def updField (o : Obj) (i : Nat) (p : Option Addr) : Obj :=
  { o with fields := o.fields.set i (.ptr p) }

/-- Overwrite field `i` of the object at address `a` in the heap. -/
def setField (s : WState) (a : Addr) (i : Nat) (p : Option Addr) : WState :=
  { s with heap := s.heap.map (fun q => if q.1 = a then (q.1, updField q.2 i p) else q) }

/-- Allocate a fresh zero instance of struct `t` at the allocation
frontier. -/
def allocState (schema : Schema) (s : WState) (t : TypeId) : WState :=
  { s with heap := (s.nextAddr, zeroObj schema t) :: s.heap, nextAddr := s.nextAddr + 1 }

/-- Read field `i` of the object at `a` as a pointer (`fv`, then
`fv.IsNil`): non-pointer contents read as nil. -/
def getF (s : WState) (a : Addr) (i : Nat) : Option Addr :=
  match lookupH s.heap a with
  | some o =>
    match o.fields[i]? with
    | some (.ptr p) => p
    | _ => none
  | none => none

/-- Read the raw value of field `i` of the object at `a`. -/
def getVal (s : WState) (a : Addr) (i : Nat) : Option Val :=
  match lookupH s.heap a with
  | some o => o.fields[i]?
  | none => none

/-- The Go panic message for a field that must be a pointer. -/
def ptrMsg (nm : String) (tn : TypeId) : String :=
  "field \"" ++ nm ++ "\" in struct \"" ++ toString tn ++ "\" must be a pointer"

/-- The Go panic message for a field that must not be anonymous. -/
def anonMsg (nm : String) (tn : TypeId) : String :=
  "field \"" ++ nm ++ "\" in struct \"" ++ toString tn ++ "\" must not be anonymous"

/-- The field loop of the `walker` closure: iterate over the remaining
fields `flds` of the node at address `a` (whose struct type is `tn`),
starting at field index `i`. `rec` is the recursive call to the walker
(with one unit of fuel consumed). Mirrors lines 46-103 of walk.go. -/
def walkLoopF (schema : Schema) (fn : Visitor) (rec : Addr → WState → WRes × WState)
    (tn : TypeId) (a : Addr) : List StructField → Nat → WState → WRes × WState
  | [], _, s => (.ok, s)
  | f :: rest, i, s =>
    match f.ftype with
    | .plain => walkLoopF schema fn rec tn a rest (i + 1) s
    | .byValue => (.panicked (ptrMsg f.name tn), s)
    | .ifaceKind => (.panicked (ptrMsg f.name tn), s)
    | .capPtr t =>
      if f.anonymous then (.panicked (anonMsg f.name tn), s)
      else
        match lookupV s.visited t with
        | some c => walkLoopF schema fn rec tn a rest (i + 1) (setField s a i (some c))
        | none =>
          match getF s a i with
          | none =>
            match rec s.nextAddr
                { allocState schema s t with visited := (t, s.nextAddr) :: s.visited } with
            | (.ok, s3) => walkLoopF schema fn rec tn a rest (i + 1)
                (setField s3 a i (lookupV s3.visited t))
            | r => r
          | some x =>
            match rec x { s with visited := (t, x) :: s.visited } with
            | (.ok, s3) => walkLoopF schema fn rec tn a rest (i + 1)
                (setField s3 a i (lookupV s3.visited t))
            | r => r

/-- The `walker` closure: process every field of the node at `a`, then call
the visitor `fn` on it, recording the call in the ghost log. A nil or
dangling node pointer panics, as dereferencing it would in Go. -/
def walkNode (schema : Schema) (fn : Visitor) : Nat → Addr → WState → WRes × WState
  | 0, _, s => (.fuelOut, s)
  | fuel + 1, a, s =>
    match lookupH s.heap a with
    | none => (.panicked "invalid memory address or nil pointer dereference", s)
    | some o =>
      match walkLoopF schema fn (walkNode schema fn fuel) o.type a (schema o.type) 0 s with
      | (.ok, s1) =>
        match fn a with
        | some e => (.err e, { s1 with visitLog := s1.visitLog ++ [a] })
        | none => (.ok, { s1 with visitLog := s1.visitLog ++ [a] })
      | r => r

/-- `Walk(c, ifaceType, fn)`: create a fresh `visited` registry (and a fresh
ghost log) and run the walker on the root. -/
def Walk (schema : Schema) (fn : Visitor) (fuel : Nat) (root : Addr) (s : WState) :
    WRes × WState :=
  walkNode schema fn fuel root { s with visited := [], visitLog := [] }

/-- An observable event of a walk, in execution order: a field overwrite
(`fv.Set`, line 102 or the memoized overwrite of line 90) or a visitor
call (line 107). -/
inductive WEvent where
  | wire (a : Addr) (i : Nat) (p : Option Addr)
  | visit (b : Addr)
deriving DecidableEq, Repr

/-- The addresses of the visitor calls of an event trace, in order. -/
def visitsOf (tr : List WEvent) : List Addr :=
  tr.filterMap fun ev =>
    match ev with
    | .visit b => some b
    | .wire _ _ _ => none

/-- The field loop again, instrumented with the event trace it performs:
identical to `walkLoopF` except that every field overwrite is recorded,
and the events of a recursive call precede the overwrite that follows
it. An erasure theorem proves the first component equal to
`walkLoopF`. -/
def walkLoopFT (schema : Schema) (fn : Visitor)
    (recT : Addr → WState → (WRes × WState) × List WEvent)
    (tn : TypeId) (a : Addr) :
    List StructField → Nat → WState → (WRes × WState) × List WEvent
  | [], _, s => ((.ok, s), [])
  | f :: rest, i, s =>
    match f.ftype with
    | .plain => walkLoopFT schema fn recT tn a rest (i + 1) s
    | .byValue => ((.panicked (ptrMsg f.name tn), s), [])
    | .ifaceKind => ((.panicked (ptrMsg f.name tn), s), [])
    | .capPtr t =>
      if f.anonymous then ((.panicked (anonMsg f.name tn), s), [])
      else
        match lookupV s.visited t with
        | some c =>
          let r := walkLoopFT schema fn recT tn a rest (i + 1) (setField s a i (some c))
          (r.1, .wire a i (some c) :: r.2)
        | none =>
          match getF s a i with
          | none =>
            match recT s.nextAddr
                { allocState schema s t with visited := (t, s.nextAddr) :: s.visited } with
            | ((.ok, s3), tr) =>
              let r := walkLoopFT schema fn recT tn a rest (i + 1)
                (setField s3 a i (lookupV s3.visited t))
              (r.1, tr ++ .wire a i (lookupV s3.visited t) :: r.2)
            | (rr, tr) => (rr, tr)
          | some x =>
            match recT x { s with visited := (t, x) :: s.visited } with
            | ((.ok, s3), tr) =>
              let r := walkLoopFT schema fn recT tn a rest (i + 1)
                (setField s3 a i (lookupV s3.visited t))
              (r.1, tr ++ .wire a i (lookupV s3.visited t) :: r.2)
            | (rr, tr) => (rr, tr)

/-- The walker, instrumented with its event trace: identical to
`walkNode` except that the visitor call on the node is recorded after
the events of its field loop. -/
def walkNodeT (schema : Schema) (fn : Visitor) :
    Nat → Addr → WState → (WRes × WState) × List WEvent
  | 0, _, s => ((.fuelOut, s), [])
  | fuel + 1, a, s =>
    match lookupH s.heap a with
    | none => ((.panicked "invalid memory address or nil pointer dereference", s), [])
    | some o =>
      match walkLoopFT schema fn (walkNodeT schema fn fuel) o.type a (schema o.type) 0 s with
      | ((.ok, s1), tr) =>
        match fn a with
        | some e => ((.err e, { s1 with visitLog := s1.visitLog ++ [a] }), tr ++ [.visit a])
        | none => ((.ok, { s1 with visitLog := s1.visitLog ++ [a] }), tr ++ [.visit a])
      | (r, tr) => (r, tr)

/-- `Walk`, instrumented with its event trace. -/
def WalkT (schema : Schema) (fn : Visitor) (fuel : Nat) (root : Addr) (s : WState) :
    (WRes × WState) × List WEvent :=
  walkNodeT schema fn fuel root { s with visited := [], visitLog := [] }

/-! ## Invariants and specification predicates -/

/-- The keys of the visited registry. -/
def keysV (s : WState) : List TypeId := s.visited.map Prod.fst

/-- A field that passes the structural validation of the walker. -/
def CleanFld (f : StructField) : Prop :=
  ¬ f.ftype = .byValue ∧ ¬ f.ftype = .ifaceKind ∧
    ∀ u, f.ftype = .capPtr u → f.anonymous = false

/-- Every field declared by the struct type of the node at `b` passes the
structural validation. -/
def CleanAt (schema : Schema) (s : WState) (b : Addr) : Prop :=
  ∀ o, lookupH s.heap b = some o → ∀ f ∈ schema o.type, CleanFld f

/-- A structurally rejected field: capability held by value, a
non-pointer capability type, or an anonymous capability pointer. -/
def BadFld (f : StructField) : Prop :=
  f.ftype = .byValue ∨ f.ftype = .ifaceKind ∨
    ∃ u, f.ftype = .capPtr u ∧ f.anonymous = true

/-- `msg` is one of the two Go panic messages, naming an actual offending
field and its enclosing struct type of the schema. -/
def NamedPanic (schema : Schema) (msg : String) : Prop :=
  ∃ tn f, f ∈ schema tn ∧
    (((f.ftype = .byValue ∨ f.ftype = .ifaceKind) ∧ msg = ptrMsg f.name tn) ∨
      ((∃ u, f.ftype = .capPtr u) ∧ f.anonymous = true ∧ msg = anonMsg f.name tn))

/-- Well-formedness of a walker state: heap objects agree with the schema
in field count; allocated addresses lie below the allocation frontier;
logged nodes are allocated; registry entries point to allocated objects of
the registered type; capability pointer slots point to objects of the
declared type; registry keys are distinct; and every logged (= visited)
node has all its capability fields wired to the registry's canonical
instances. -/
structure WInv (schema : Schema) (s : WState) : Prop where
  heapLen : ∀ (a : Addr) (o : Obj), lookupH s.heap a = some o →
      o.fields.length = (schema o.type).length
  fresh : ∀ (a : Addr) (o : Obj), lookupH s.heap a = some o → a < s.nextAddr
  logDom : ∀ b ∈ s.visitLog, ∃ o, lookupH s.heap b = some o
  vtyped : ∀ (t : TypeId) (c : Addr), lookupV s.visited t = some c →
      ∃ o, lookupH s.heap c = some o ∧ o.type = t
  ptyped : ∀ (a : Addr) (o : Obj) (i : Nat) (f : StructField) (t : TypeId) (x : Addr),
      lookupH s.heap a = some o → (schema o.type)[i]? = some f →
      f.ftype = .capPtr t → o.fields[i]? = some (.ptr (some x)) →
      ∃ o', lookupH s.heap x = some o' ∧ o'.type = t
  vnodup : (s.visited.map Prod.fst).Nodup
  fieldsOK : ∀ b ∈ s.visitLog, ∀ (o : Obj), lookupH s.heap b = some o →
      ∀ (i : Nat) (f : StructField) (t : TypeId),
      (schema o.type)[i]? = some f → f.ftype = .capPtr t →
      ∃ c, lookupV s.visited t = some c ∧ o.fields[i]? = some (.ptr (some c))

/-- Evolution facts relating a state to any later state of the same walk:
the allocation frontier and the registry grow monotonically, objects keep
their type and arity, the visit log grows by appending, capability pointer
slots are either untouched or wired to a registry canonical, and all other
slots are untouched. -/
structure Ev (schema : Schema) (s s' : WState) : Prop where
  nextMono : s.nextAddr ≤ s'.nextAddr
  heapPres : ∀ (b : Addr) (o : Obj), lookupH s.heap b = some o →
      ∃ o', lookupH s'.heap b = some o' ∧ o'.type = o.type ∧
        o'.fields.length = o.fields.length
  canonMono : ∀ (t : TypeId) (c : Addr), lookupV s.visited t = some c →
      lookupV s'.visited t = some c
  fieldCap : ∀ (b : Addr) (o : Obj) (i : Nat) (f : StructField) (t : TypeId),
      lookupH s.heap b = some o → (schema o.type)[i]? = some f →
      f.ftype = .capPtr t →
      getF s' b i = getF s b i ∨
        ∃ c, getF s' b i = some c ∧ lookupV s'.visited t = some c
  fieldPlain : ∀ (b : Addr) (o : Obj) (i : Nat) (f : StructField),
      lookupH s.heap b = some o → (schema o.type)[i]? = some f →
      (∀ u, ¬ f.ftype = .capPtr u) → getVal s' b i = getVal s b i
  visExt : ∃ nv, s'.visited = nv ++ s.visited
  logExt : ∃ l, s'.visitLog = s.visitLog ++ l

/-- Full postcondition of one walker call (`own = [a]`) or one field-loop
run (`own = []`) started in state `s` with result `rp`. -/
structure PostS (schema : Schema) (fn : Visitor) (own : List Addr) (s : WState)
    (rp : WRes × WState) : Prop where
  inv : WInv schema rp.2
  ev : Ev schema s rp.2
  grow : ∃ nv l, rp.2.visited = nv ++ s.visited ∧ rp.2.visitLog = s.visitLog ++ l ∧
      (∀ b ∈ l, CleanAt schema rp.2 b) ∧
      (rp.1 = .ok → ∀ b ∈ l, fn b = none) ∧
      (rp.1 = .ok → ∀ b, l.count b = own.count b + (nv.map Prod.snd).count b) ∧
      (∀ e, rp.1 = .err e → ∃ L N, l = L ++ [N] ∧ fn N = some e ∧ ∀ b ∈ L, fn b = none) ∧
      (rp.1 = .ok → ∀ t ∈ nv.map Prod.fst, ∀ f ∈ schema t, ∀ u, f.ftype = .capPtr u →
        ∃ c, lookupV rp.2.visited u = some c)
  ownClosure : rp.1 = .ok → ∀ b ∈ own, ∀ (o : Obj), lookupH s.heap b = some o →
      ∀ f ∈ schema o.type, ∀ u, f.ftype = .capPtr u → ∃ c, lookupV rp.2.visited u = some c
  panicNamed : ∀ msg, rp.1 = .panicked msg →
      (∀ b ∈ own, ∃ o, lookupH s.heap b = some o) → NamedPanic schema msg

/-- Precondition of the field loop: the walked node `a` is allocated, has
struct type `tn`, and `flds` is the tail of `schema tn` starting at field
index `i`. -/
def Align (schema : Schema) (s : WState) (a : Addr) (tn : TypeId)
    (flds : List StructField) (i : Nat) : Prop :=
  ∃ o, lookupH s.heap a = some o ∧ o.type = tn ∧
    ∀ k, flds[k]? = (schema tn)[i + k]?

/-- Extra postcondition of the field loop on normal completion: every
processed capability field of the node is wired to the (now registered)
canonical instance of its type, every processed field passed structural
validation, and every processed capability target type is registered. -/
def LoopPost (rp : WRes × WState) (a : Addr) (flds : List StructField) (i : Nat) : Prop :=
  rp.1 = .ok →
    (∀ (k : Nat) (f : StructField) (t : TypeId), flds[k]? = some f → f.ftype = .capPtr t →
      ∃ c, lookupV rp.2.visited t = some c ∧ getF rp.2 a (i + k) = some c) ∧
    (∀ f ∈ flds, CleanFld f) ∧
    (∀ f ∈ flds, ∀ u, f.ftype = .capPtr u → ∃ c, lookupV rp.2.visited u = some c)

/-- `u` is reachable from struct type `t0` through capability pointer
fields of the schema. -/
inductive ReachType (schema : Schema) (t0 : TypeId) : TypeId → Prop where
  | base (f : StructField) (u : TypeId) :
      f ∈ schema t0 → f.ftype = .capPtr u → ReachType schema t0 u
  | step (t : TypeId) (f : StructField) (u : TypeId) :
      ReachType schema t0 t → f ∈ schema t → f.ftype = .capPtr u → ReachType schema t0 u

/-- Every capability pointer target of the schema lies in the finite set
`T` (used to bound the recursion depth). -/
def TargetsIn (schema : Schema) (T : Finset TypeId) : Prop :=
  ∀ t, ∀ f ∈ schema t, ∀ u, f.ftype = .capPtr u → u ∈ T

/-- Executable well-formedness check of one capability pointer slot of an
initial heap: a non-nil capability pointer points to an allocated object
of the declared type. -/
def slotOK (heap : Heap) (f : StructField) (v : Val) : Bool :=
  match f.ftype, v with
  | .capPtr t, .ptr (some x) =>
    match lookupH heap x with
    | some o => decide (o.type = t)
    | none => false
  | _, _ => true

/-- Executable well-formedness check of one heap entry of an initial
state. -/
def entryOK (schema : Schema) (heap : Heap) (n : Addr) (q : Addr × Obj) : Bool :=
  decide (q.1 < n) && decide (q.2.fields.length = (schema q.2.type).length) &&
    (List.zip (schema q.2.type) q.2.fields).all (fun z => slotOK heap z.1 z.2)

/-- Executable well-formedness check of an initial heap: evaluates to
`true` exactly when `Inv` holds for the state `⟨heap, n, [], []⟩`. -/
def initOK (schema : Schema) (heap : Heap) (n : Addr) : Bool :=
  heap.all (entryOK schema heap n)

/-- Executable check that no field of an initial heap points at `r0`. -/
def noPtrTo (heap : Heap) (r0 : Addr) : Bool :=
  heap.all (fun q => q.2.fields.all (fun v => ¬ v = .ptr (some r0)))

/-! ## Concrete example schemas and initial states -/

/-- The trivial visitor that never fails. -/
def visNone : Visitor := fun _ => none

/-- Schema for the spec's concrete sharing scenario: struct `0` has fields
`A` then `B`, both of capability pointer type `*Conn` where `Conn` is
struct `1` (which has no fields). -/
def schAB : Schema := fun t =>
  match t with
  | 0 => [⟨"A", false, .capPtr 1⟩, ⟨"B", false, .capPtr 1⟩]
  | _ => []

/-- Initial state for the spec's concrete scenario: root at address 0 with
`A` nil and `B` pointing to the pre-built instance `X` at address 1. -/
def stABnilX : WState :=
  ⟨[(0, ⟨0, [.ptr none, .ptr (some 1)]⟩), (1, ⟨1, []⟩)], 2, [], []⟩

/-- The same scenario with the roles swapped: `A` points to the pre-built
instance `X` at address 1 and `B` is nil. -/
def stABXnil : WState :=
  ⟨[(0, ⟨0, [.ptr (some 1), .ptr none]⟩), (1, ⟨1, []⟩)], 2, [], []⟩

/-- Schema with a capability held by value behind a capability pointer
field: struct `0` has field `a : *T1` followed by field `b` holding a
capability type by value. -/
def schByVal : Schema := fun t =>
  match t with
  | 0 => [⟨"a", false, .capPtr 1⟩, ⟨"b", false, .byValue⟩]
  | _ => []

/-- Nil-initialized root for `schByVal`. -/
def stByVal : WState := ⟨[(0, ⟨0, [.ptr none, .data 0]⟩)], 1, [], []⟩

/-- Schema with an anonymously embedded capability pointer field `e`
declared after an ordinary capability pointer field `a`. -/
def schAnon : Schema := fun t =>
  match t with
  | 0 => [⟨"a", false, .capPtr 1⟩, ⟨"e", true, .capPtr 2⟩]
  | _ => []

/-- Nil-initialized root for `schAnon`. -/
def stAnon : WState := ⟨[(0, ⟨0, [.ptr none, .ptr none]⟩)], 1, [], []⟩

/-- A visitor that fails with error 7 on the node at address 1. -/
def visErr1 : Visitor := fun b => if b = 1 then some 7 else none

/-- Self-referential schema: the root's own struct type `0` implements the
capability and declares a field `B : *T0`. -/
def schSelf : Schema := fun t =>
  match t with
  | 0 => [⟨"B", false, .capPtr 0⟩]
  | _ => []

/-- Initial state in which the root's field `B` is pre-set to point at the
root itself. -/
def stSelf : WState := ⟨[(0, ⟨0, [.ptr (some 0)]⟩)], 1, [], []⟩

/-- A fresh initial state: a heap, an allocation frontier, an empty
registry and an empty visit log. -/
def mkInit (heap : Heap) (n : Addr) : WState := ⟨heap, n, [], []⟩

/-- Number of types of `T` not yet in the visited registry: the measure
that bounds the remaining recursion depth of the walker. -/
def measV (T : Finset TypeId) (s : WState) : Nat :=
  (T.filter (fun u => u ∉ s.visited.map Prod.fst)).card

/-- No reference to `r0` anywhere in the state: no heap field holds a
pointer to `r0`, no registry entry maps to `r0`, and `r0` lies below the
allocation frontier. -/
structure AvoidR (s : WState) (r0 : Addr) : Prop where
  noField : ∀ (a : Addr) (o : Obj) (i : Nat), lookupH s.heap a = some o →
      ¬ o.fields[i]? = some (.ptr (some r0))
  noCanon : ∀ (t : TypeId) (c : Addr), lookupV s.visited t = some c → ¬ c = r0
  lt : r0 < s.nextAddr

/-- Schema with an ordinary data field before a capability pointer
field. -/
def schPlain : Schema := fun t =>
  match t with
  | 0 => [⟨"d", false, .plain⟩, ⟨"c", false, .capPtr 1⟩]
  | _ => []

/-- Initial state for `schPlain`: the data field holds 42. -/
def stPlain : WState := ⟨[(0, ⟨0, [.data 42, .ptr none]⟩)], 1, [], []⟩

theorem lookupH_cons (k : Addr) (o : Obj) (h : Heap) (a : Addr) :
    lookupH ((k, o) :: h) a = if k = a then some o else lookupH h a := rfl

theorem mem_of_lookupH : ∀ {h : Heap} {a : Addr} {o : Obj}, lookupH h a = some o → (a, o) ∈ h
  | [], a, o, hl => by simp [lookupH] at hl
  | (k, o') :: t, a, o, hl => by
    by_cases hk : k = a
    · subst hk
      simp [lookupH] at hl
      simp [hl]
    · rw [lookupH_cons, if_neg hk] at hl
      exact List.mem_cons_of_mem _ (mem_of_lookupH hl)

theorem lookupV_cons (u : TypeId) (c : Addr) (vs : List (TypeId × Addr)) (t : TypeId) :
    lookupV ((u, c) :: vs) t = if u = t then some c else lookupV vs t := rfl

theorem lookupV_mem : ∀ {vs : List (TypeId × Addr)} {t : TypeId} {c : Addr},
    lookupV vs t = some c → (t, c) ∈ vs
  | [], t, c, hl => by simp [lookupV] at hl
  | (u, c') :: vs, t, c, hl => by
    by_cases hu : u = t
    · subst hu
      simp [lookupV] at hl
      simp [hl]
    · rw [lookupV_cons, if_neg hu] at hl
      exact List.mem_cons_of_mem _ (lookupV_mem hl)

theorem lookupV_eq_none : ∀ {vs : List (TypeId × Addr)} {t : TypeId},
    lookupV vs t = none ↔ t ∉ vs.map Prod.fst
  | [], t => by simp [lookupV]
  | (u, c) :: vs, t => by
    by_cases hu : u = t
    · subst hu
      simp [lookupV_cons]
    · rw [lookupV_cons, if_neg hu]
      simp only [List.map_cons, List.mem_cons]
      rw [lookupV_eq_none]
      constructor
      · rintro hn (h1 | h2)
        · exact hu h1.symm
        · exact hn h2
      · intro hn
        exact fun h2 => hn (Or.inr h2)

theorem lookupV_some_of_mem_keys : ∀ {vs : List (TypeId × Addr)} {t : TypeId},
    t ∈ vs.map Prod.fst → ∃ c, lookupV vs t = some c := by
  intro vs t ht
  cases hl : lookupV vs t with
  | some c => exact ⟨c, rfl⟩
  | none => exact absurd ht (lookupV_eq_none.mp hl)

@[simp] theorem setField_visited (s : WState) (a : Addr) (i : Nat) (p : Option Addr) :
    (setField s a i p).visited = s.visited := rfl

@[simp] theorem setField_visitLog (s : WState) (a : Addr) (i : Nat) (p : Option Addr) :
    (setField s a i p).visitLog = s.visitLog := rfl

@[simp] theorem setField_nextAddr (s : WState) (a : Addr) (i : Nat) (p : Option Addr) :
    (setField s a i p).nextAddr = s.nextAddr := rfl

@[simp] theorem allocState_visited (schema : Schema) (s : WState) (t : TypeId) :
    (allocState schema s t).visited = s.visited := rfl

@[simp] theorem allocState_visitLog (schema : Schema) (s : WState) (t : TypeId) :
    (allocState schema s t).visitLog = s.visitLog := rfl

@[simp] theorem allocState_nextAddr (schema : Schema) (s : WState) (t : TypeId) :
    (allocState schema s t).nextAddr = s.nextAddr + 1 := rfl

theorem lookupH_mapUpd (h : Heap) (a : Addr) (g : Obj → Obj) (b : Addr) :
    lookupH (h.map (fun q => if q.1 = a then (q.1, g q.2) else q)) b =
      if b = a then (lookupH h b).map g else lookupH h b := by
  induction h with
  | nil => by_cases hb : b = a <;> simp [lookupH, hb]
  | cons q t ih =>
    obtain ⟨k, o⟩ := q
    simp only [List.map_cons]
    by_cases hb : k = b
    · subst hb
      by_cases ha : k = a
      · subst ha
        simp [lookupH_cons]
      · rw [if_neg ha, lookupH_cons, if_pos rfl, lookupH_cons, if_pos rfl, if_neg ha]
    · by_cases ha : k = a
      · rw [if_pos ha, lookupH_cons, if_neg hb, ih]
        simp only [lookupH_cons, if_neg hb]
      · rw [if_neg ha, lookupH_cons, if_neg hb, ih]
        simp only [lookupH_cons, if_neg hb]

theorem lookupH_setField (s : WState) (a : Addr) (i : Nat) (p : Option Addr) (b : Addr) :
    lookupH (setField s a i p).heap b =
      if b = a then (lookupH s.heap b).map (fun o => updField o i p) else lookupH s.heap b :=
  lookupH_mapUpd s.heap a (fun o => updField o i p) b

theorem lookupH_alloc (schema : Schema) (s : WState) (t : TypeId) (b : Addr) :
    lookupH (allocState schema s t).heap b =
      if s.nextAddr = b then some (zeroObj schema t) else lookupH s.heap b := rfl

@[simp] theorem updField_type (o : Obj) (i : Nat) (p : Option Addr) :
    (updField o i p).type = o.type := rfl

@[simp] theorem updField_length (o : Obj) (i : Nat) (p : Option Addr) :
    (updField o i p).fields.length = o.fields.length := by
  simp [updField]

@[simp] theorem zeroObj_type (schema : Schema) (t : TypeId) : (zeroObj schema t).type = t := rfl

@[simp] theorem zeroObj_length (schema : Schema) (t : TypeId) :
    (zeroObj schema t).fields.length = (schema t).length := by
  simp [zeroObj]

theorem zeroVal_ne_ptrSome (ft : FieldType) (x : Addr) : ¬ zeroVal ft = .ptr (some x) := by
  cases ft <;> simp [zeroVal]

theorem zeroObj_no_ptrSome (schema : Schema) (t : TypeId) (i : Nat) (x : Addr) :
    ¬ (zeroObj schema t).fields[i]? = some (.ptr (some x)) := by
  intro hget
  have hmem : Val.ptr (some x) ∈ (zeroObj schema t).fields := List.getElem?_mem hget
  simp only [zeroObj, List.mem_map] at hmem
  obtain ⟨f, _, hf⟩ := hmem
  exact zeroVal_ne_ptrSome f.ftype x hf

theorem getVal_def (s : WState) (a : Addr) (i : Nat) :
    getVal s a i = (lookupH s.heap a).bind (fun o => o.fields[i]?) := by
  unfold getVal
  cases lookupH s.heap a <;> rfl

theorem getF_as_getVal (s : WState) (a : Addr) (i : Nat) :
    getF s a i = match getVal s a i with
      | some (.ptr p) => p
      | _ => none := by
  unfold getF getVal
  cases lookupH s.heap a <;> rfl

theorem getF_eq_some_iff (s : WState) (a : Addr) (i : Nat) (c : Addr) :
    getF s a i = some c ↔ getVal s a i = some (.ptr (some c)) := by
  rw [getF_as_getVal]
  cases hv : getVal s a i with
  | none => simp
  | some v =>
    cases v with
    | data n => simp
    | ptr q => cases q <;> simp

theorem getVal_setField_self {s : WState} {a : Addr} {i : Nat} {o : Obj} (p : Option Addr)
    (ho : lookupH s.heap a = some o) (hi : i < o.fields.length) :
    getVal (setField s a i p) a i = some (.ptr p) := by
  rw [getVal_def, lookupH_setField, if_pos rfl, ho]
  simp only [Option.map_some, Option.bind_some, updField]
  exact List.getElem?_set_self hi

theorem getVal_setField_ne_idx {s : WState} {a b : Addr} {i j : Nat} (p : Option Addr)
    (hj : ¬ j = i) : getVal (setField s a i p) b j = getVal s b j := by
  rw [getVal_def, getVal_def, lookupH_setField]
  by_cases hb : b = a
  · rw [if_pos hb]
    cases lookupH s.heap b with
    | none => rfl
    | some o =>
      simp only [Option.map_some, Option.bind_some, updField]
      exact List.getElem?_set_ne (fun hh => hj hh.symm)
  · rw [if_neg hb]

theorem getVal_setField_ne_addr {s : WState} {a b : Addr} {i j : Nat} (p : Option Addr)
    (hb : ¬ b = a) : getVal (setField s a i p) b j = getVal s b j := by
  rw [getVal_def, getVal_def, lookupH_setField, if_neg hb]

theorem getVal_alloc {schema : Schema} {s : WState} {t : TypeId} {b : Addr} {j : Nat}
    (hb : ¬ s.nextAddr = b) : getVal (allocState schema s t) b j = getVal s b j := by
  rw [getVal_def, getVal_def, lookupH_alloc, if_neg hb]

theorem getVal_visited_irrel (s : WState) (vs : List (TypeId × Addr)) (lg : List Addr)
    (a : Addr) (i : Nat) :
    getVal { s with visited := vs, visitLog := lg } a i = getVal s a i := rfl

/-! ## Heap update lemmas -/

theorem lt_of_getElem?_some {α : Type} {l : List α} {i : Nat} {x : α}
    (h : l[i]? = some x) : i < l.length := by
  by_contra hlt
  rw [List.getElem?_eq_none (Nat.le_of_not_lt hlt)] at h
  cases h

theorem updField_get_self {o : Obj} {i : Nat} (p : Option Addr) (h : i < o.fields.length) :
    (updField o i p).fields[i]? = some (.ptr p) := by
  simp only [updField]
  exact List.getElem?_set_self h

theorem updField_get_ne {o : Obj} {i j : Nat} (p : Option Addr) (h : ¬ j = i) :
    (updField o i p).fields[j]? = o.fields[j]? := by
  simp only [updField]
  exact List.getElem?_set_ne (fun he => h he.symm)

theorem lookupH_setField_self {s : WState} {a : Addr} {o : Obj} (i : Nat) (p : Option Addr)
    (ho : lookupH s.heap a = some o) :
    lookupH (setField s a i p).heap a = some (updField o i p) := by
  rw [lookupH_setField, if_pos rfl, ho]
  rfl

theorem lookupH_setField_other {s : WState} {a b : Addr} (i : Nat) (p : Option Addr)
    (hba : ¬ b = a) : lookupH (setField s a i p).heap b = lookupH s.heap b := by
  rw [lookupH_setField, if_neg hba]

theorem lookupH_setField_cases {s : WState} {a : Addr} {i : Nat} {p : Option Addr}
    {b : Addr} {o' : Obj} (h : lookupH (setField s a i p).heap b = some o') :
    (b = a ∧ ∃ o, lookupH s.heap a = some o ∧ o' = updField o i p) ∨
      (¬ b = a ∧ lookupH s.heap b = some o') := by
  rw [lookupH_setField] at h
  by_cases hba : b = a
  · rw [if_pos hba] at h
    subst hba
    cases ho : lookupH s.heap b with
    | none => rw [ho] at h; cases h
    | some o =>
      rw [ho] at h
      exact Or.inl ⟨rfl, o, rfl, (Option.some.inj h).symm⟩
  · rw [if_neg hba] at h
    exact Or.inr ⟨hba, h⟩

theorem lookupH_alloc_self (schema : Schema) (s : WState) (t : TypeId) :
    lookupH (allocState schema s t).heap s.nextAddr = some (zeroObj schema t) := by
  rw [lookupH_alloc, if_pos rfl]

theorem lookupH_alloc_other {schema : Schema} {s : WState} {t : TypeId} {b : Addr}
    (hb : ¬ s.nextAddr = b) :
    lookupH (allocState schema s t).heap b = lookupH s.heap b := by
  rw [lookupH_alloc, if_neg hb]

theorem lookupH_alloc_cases {schema : Schema} {s : WState} {t : TypeId} {b : Addr} {o' : Obj}
    (h : lookupH (allocState schema s t).heap b = some o') :
    (b = s.nextAddr ∧ o' = zeroObj schema t) ∨
      (¬ b = s.nextAddr ∧ lookupH s.heap b = some o') := by
  rw [lookupH_alloc] at h
  by_cases hb : s.nextAddr = b
  · rw [if_pos hb] at h
    exact Or.inl ⟨hb.symm, (Option.some.inj h).symm⟩
  · rw [if_neg hb] at h
    exact Or.inr ⟨fun he => hb he.symm, h⟩

/-! ## Evolution lemmas -/

theorem Ev.refl (schema : Schema) (s : WState) : Ev schema s s where
  nextMono := le_refl _
  heapPres := fun _ o h => ⟨o, h, rfl, rfl⟩
  canonMono := fun _ _ h => h
  fieldCap := fun _ _ _ _ _ _ _ _ => Or.inl rfl
  fieldPlain := fun _ _ _ _ _ _ _ => rfl
  visExt := ⟨[], rfl⟩
  logExt := ⟨[], by simp⟩

theorem Ev.trans {schema : Schema} {s1 s2 s3 : WState}
    (e1 : Ev schema s1 s2) (e2 : Ev schema s2 s3) : Ev schema s1 s3 where
  nextMono := le_trans e1.nextMono e2.nextMono
  heapPres := fun b o h => by
    obtain ⟨o2, h2, ht2, hl2⟩ := e1.heapPres b o h
    obtain ⟨o3, h3, ht3, hl3⟩ := e2.heapPres b o2 h2
    exact ⟨o3, h3, ht3.trans ht2, hl3.trans hl2⟩
  canonMono := fun t c h => e2.canonMono t c (e1.canonMono t c h)
  fieldCap := fun b o i f t hb hf hft => by
    obtain ⟨o2, h2, ht2, _⟩ := e1.heapPres b o hb
    have hf2 : (schema o2.type)[i]? = some f := by rw [ht2]; exact hf
    rcases e2.fieldCap b o2 i f t h2 hf2 hft with h23 | ⟨c, hc, hcan⟩
    · rcases e1.fieldCap b o i f t hb hf hft with h12 | ⟨c, hc, hcan⟩
      · exact Or.inl (h23.trans h12)
      · exact Or.inr ⟨c, h23.trans hc, e2.canonMono t c hcan⟩
    · exact Or.inr ⟨c, hc, hcan⟩
  fieldPlain := fun b o i f hb hf hnc => by
    obtain ⟨o2, h2, ht2, _⟩ := e1.heapPres b o hb
    have hf2 : (schema o2.type)[i]? = some f := by rw [ht2]; exact hf
    exact (e2.fieldPlain b o2 i f h2 hf2 hnc).trans (e1.fieldPlain b o i f hb hf hnc)
  visExt := by
    obtain ⟨nv1, h1⟩ := e1.visExt
    obtain ⟨nv2, h2⟩ := e2.visExt
    exact ⟨nv2 ++ nv1, by rw [h2, h1, List.append_assoc]⟩
  logExt := by
    obtain ⟨l1, h1⟩ := e1.logExt
    obtain ⟨l2, h2⟩ := e2.logExt
    exact ⟨l1 ++ l2, by rw [h2, h1, List.append_assoc]⟩

theorem CleanAt_mono {schema : Schema} {s s' : WState} {b : Addr}
    (ev : Ev schema s s') (hdom : ∃ o, lookupH s.heap b = some o)
    (hc : CleanAt schema s b) : CleanAt schema s' b := by
  obtain ⟨o, ho⟩ := hdom
  intro o' ho' f hf
  obtain ⟨o2, h2, ht2, _⟩ := ev.heapPres b o ho
  rw [ho'] at h2
  have ho2 : o2 = o' := Option.some.inj h2.symm
  subst ho2
  rw [ht2] at hf
  exact hc o ho f hf

theorem Ev_setField_canon {schema : Schema} {s : WState} {a : Addr} {i : Nat}
    {o : Obj} {f : StructField} {t : TypeId} {c : Addr} (hinv : WInv schema s)
    (ho : lookupH s.heap a = some o) (hf : (schema o.type)[i]? = some f)
    (hft : f.ftype = .capPtr t) (hc : lookupV s.visited t = some c) :
    Ev schema s (setField s a i (some c)) where
  nextMono := le_refl _
  heapPres := fun b ob hb => by
    by_cases hba : b = a
    · subst hba
      have hoo : ob = o := Option.some.inj (hb.symm.trans ho)
      subst hoo
      exact ⟨updField ob i (some c), lookupH_setField_self i _ hb, rfl, by simp⟩
    · exact ⟨ob, by rw [lookupH_setField_other i _ hba]; exact hb, rfl, rfl⟩
  canonMono := fun _ _ h => h
  fieldCap := fun b ob j f' t' hb hf' hft' => by
    by_cases hba : b = a
    · subst hba
      by_cases hji : j = i
      · subst hji
        have hoo : ob = o := Option.some.inj (hb.symm.trans ho)
        subst hoo
        have hff : f' = f := Option.some.inj (hf'.symm.trans hf)
        subst hff
        rw [hft] at hft'
        have htt : t' = t := by cases hft'; rfl
        subst htt
        have hrange : j < ob.fields.length := by
          rw [hinv.heapLen b ob hb]
          exact lt_of_getElem?_some hf
        right
        refine ⟨c, ?_, hc⟩
        rw [getF_eq_some_iff]
        exact getVal_setField_self _ hb hrange
      · left
        rw [getF_as_getVal, getF_as_getVal, getVal_setField_ne_idx _ hji]
    · left
      rw [getF_as_getVal, getF_as_getVal, getVal_setField_ne_addr _ hba]
  fieldPlain := fun b ob j f' hb hf' hnc => by
    by_cases hba : b = a
    · subst hba
      by_cases hji : j = i
      · subst hji
        have hoo : ob = o := Option.some.inj (hb.symm.trans ho)
        subst hoo
        have hff : f' = f := Option.some.inj (hf'.symm.trans hf)
        subst hff
        exact absurd hft (hnc t)
      · exact getVal_setField_ne_idx _ hji
    · exact getVal_setField_ne_addr _ hba
  visExt := ⟨[], rfl⟩
  logExt := ⟨[], by simp⟩

theorem Ev_alloc {schema : Schema} {s : WState} (t : TypeId) (hinv : WInv schema s) :
    Ev schema s (allocState schema s t) where
  nextMono := Nat.le_succ _
  heapPres := fun b o hb => by
    have hne : ¬ s.nextAddr = b := fun he =>
      absurd (hinv.fresh b o hb) (by rw [he]; exact lt_irrefl _)
    exact ⟨o, by rw [lookupH_alloc_other hne]; exact hb, rfl, rfl⟩
  canonMono := fun _ _ h => h
  fieldCap := fun b o j f t' hb _ _ => by
    have hne : ¬ s.nextAddr = b := fun he =>
      absurd (hinv.fresh b o hb) (by rw [he]; exact lt_irrefl _)
    left
    rw [getF_as_getVal, getF_as_getVal, getVal_alloc hne]
  fieldPlain := fun b o j f hb _ _ => by
    have hne : ¬ s.nextAddr = b := fun he =>
      absurd (hinv.fresh b o hb) (by rw [he]; exact lt_irrefl _)
    exact getVal_alloc hne
  visExt := ⟨[], rfl⟩
  logExt := ⟨[], by simp⟩

theorem Ev_register {schema : Schema} {s : WState} {t : TypeId} (x : Addr)
    (hnone : lookupV s.visited t = none) :
    Ev schema s { s with visited := (t, x) :: s.visited } where
  nextMono := le_refl _
  heapPres := fun _ o h => ⟨o, h, rfl, rfl⟩
  canonMono := fun t' c h => by
    rw [lookupV_cons]
    by_cases ht : t = t'
    · subst ht
      rw [hnone] at h
      cases h
    · rw [if_neg ht]
      exact h
  fieldCap := fun _ _ _ _ _ _ _ _ => Or.inl rfl
  fieldPlain := fun _ _ _ _ _ _ _ => rfl
  visExt := ⟨[(t, x)], rfl⟩
  logExt := ⟨[], by simp⟩

theorem Ev_logAppend (schema : Schema) (s : WState) (a : Addr) :
    Ev schema s { s with visitLog := s.visitLog ++ [a] } where
  nextMono := le_refl _
  heapPres := fun _ o h => ⟨o, h, rfl, rfl⟩
  canonMono := fun _ _ h => h
  fieldCap := fun _ _ _ _ _ _ _ _ => Or.inl rfl
  fieldPlain := fun _ _ _ _ _ _ _ => rfl
  visExt := ⟨[], rfl⟩
  logExt := ⟨[a], rfl⟩

/-! ## Invariant preservation lemmas -/

theorem WInv_setField_canon {schema : Schema} {s : WState} {a : Addr} {i : Nat}
    {o : Obj} {f : StructField} {t : TypeId} {c : Addr} (hinv : WInv schema s)
    (ho : lookupH s.heap a = some o) (hf : (schema o.type)[i]? = some f)
    (hft : f.ftype = .capPtr t) (hc : lookupV s.visited t = some c) :
    WInv schema (setField s a i (some c)) where
  heapLen := fun b ob hb => by
    rcases lookupH_setField_cases hb with ⟨hba, o', ho', hou⟩ | ⟨_, hb'⟩
    · subst hba
      subst hou
      simp only [updField_type, updField_length]
      exact hinv.heapLen b o' ho'
    · exact hinv.heapLen b ob hb'
  fresh := fun b ob hb => by
    rcases lookupH_setField_cases hb with ⟨hba, o', ho', _⟩ | ⟨_, hb'⟩
    · subst hba
      exact hinv.fresh b o' ho'
    · exact hinv.fresh b ob hb'
  logDom := fun b hb => by
    obtain ⟨ob, hob⟩ := hinv.logDom b hb
    by_cases hba : b = a
    · subst hba
      exact ⟨updField ob i (some c), lookupH_setField_self i _ hob⟩
    · exact ⟨ob, by rw [lookupH_setField_other i _ hba]; exact hob⟩
  vtyped := fun t' c' h => by
    obtain ⟨oc, hoc, hoct⟩ := hinv.vtyped t' c' h
    by_cases hca : c' = a
    · subst hca
      exact ⟨updField oc i (some c), lookupH_setField_self i _ hoc, hoct⟩
    · exact ⟨oc, by rw [lookupH_setField_other i _ hca]; exact hoc, hoct⟩
  ptyped := fun b ob j f' t' x hb hf' hft' hslot => by
    have hx : ∃ o2, lookupH s.heap x = some o2 ∧ o2.type = t' := by
      rcases lookupH_setField_cases hb with ⟨hba, o', ho', hou⟩ | ⟨_, hb'⟩
      · subst hba
        have ho'o : o' = o := Option.some.inj (ho'.symm.trans ho)
        subst ho'o
        subst hou
        rw [updField_type] at hf'
        by_cases hji : j = i
        · subst hji
          have hrange : j < o'.fields.length := by
            rw [hinv.heapLen b o' ho']
            exact lt_of_getElem?_some hf'
          rw [updField_get_self _ hrange] at hslot
          simp only [Option.some.injEq, Val.ptr.injEq] at hslot
          have hxc : c = x := hslot
          subst hxc
          have hff : f' = f := Option.some.inj (hf'.symm.trans hf)
          subst hff
          rw [hft] at hft'
          have htt : t = t' := by injection hft'
          subst htt
          obtain ⟨oc, hoc, hoct⟩ := hinv.vtyped t c hc
          exact ⟨oc, hoc, hoct⟩
        · rw [updField_get_ne _ hji] at hslot
          exact hinv.ptyped b o' j f' t' x ho' hf' hft' hslot
      · exact hinv.ptyped b ob j f' t' x hb' hf' hft' hslot
    obtain ⟨o2, ho2, ho2t⟩ := hx
    by_cases hxa : x = a
    · subst hxa
      exact ⟨updField o2 i (some c), lookupH_setField_self i _ ho2, ho2t⟩
    · exact ⟨o2, by rw [lookupH_setField_other i _ hxa]; exact ho2, ho2t⟩
  vnodup := hinv.vnodup
  fieldsOK := fun b hb ob hob j f' t' hf' hft' => by
    rcases lookupH_setField_cases hob with ⟨hba, o', ho', hou⟩ | ⟨_, hb'⟩
    · subst hba
      have ho'o : o' = o := Option.some.inj (ho'.symm.trans ho)
      subst ho'o
      subst hou
      rw [updField_type] at hf'
      by_cases hji : j = i
      · subst hji
        have hff : f' = f := Option.some.inj (hf'.symm.trans hf)
        subst hff
        rw [hft] at hft'
        have htt : t = t' := by injection hft'
        subst htt
        have hrange : j < o'.fields.length := by
          rw [hinv.heapLen b o' ho']
          exact lt_of_getElem?_some hf'
        exact ⟨c, hc, by rw [updField_get_self _ hrange]⟩
      · obtain ⟨c', hc', hs'⟩ := hinv.fieldsOK b hb o' ho' j f' t' hf' hft'
        exact ⟨c', hc', by rw [updField_get_ne _ hji]; exact hs'⟩
    · exact hinv.fieldsOK b hb ob hb' j f' t' hf' hft'

theorem WInv_alloc {schema : Schema} {s : WState} (t : TypeId) (hinv : WInv schema s) :
    WInv schema (allocState schema s t) where
  heapLen := fun b ob hb => by
    rcases lookupH_alloc_cases hb with ⟨_, hoz⟩ | ⟨_, hb'⟩
    · subst hoz
      simp
    · exact hinv.heapLen b ob hb'
  fresh := fun b ob hb => by
    rcases lookupH_alloc_cases hb with ⟨hbn, _⟩ | ⟨_, hb'⟩
    · subst hbn
      simp
    · exact Nat.lt_succ_of_lt (hinv.fresh b ob hb')
  logDom := fun b hb => by
    obtain ⟨ob, hob⟩ := hinv.logDom b hb
    have hne : ¬ s.nextAddr = b := fun he =>
      absurd (he ▸ hinv.fresh b ob hob) (lt_irrefl b)
    exact ⟨ob, by rw [lookupH_alloc_other hne]; exact hob⟩
  vtyped := fun t' c' h => by
    obtain ⟨oc, hoc, hoct⟩ := hinv.vtyped t' c' h
    have hne : ¬ s.nextAddr = c' := fun he =>
      absurd (he ▸ hinv.fresh c' oc hoc) (lt_irrefl c')
    exact ⟨oc, by rw [lookupH_alloc_other hne]; exact hoc, hoct⟩
  ptyped := fun b ob j f' t' x hb hf' hft' hslot => by
    rcases lookupH_alloc_cases hb with ⟨_, hoz⟩ | ⟨_, hb'⟩
    · subst hoz
      exact absurd hslot (zeroObj_no_ptrSome schema t j x)
    · obtain ⟨o2, ho2, ho2t⟩ := hinv.ptyped b ob j f' t' x hb' hf' hft' hslot
      have hne : ¬ s.nextAddr = x := fun he =>
        absurd (he ▸ hinv.fresh x o2 ho2) (lt_irrefl x)
      exact ⟨o2, by rw [lookupH_alloc_other hne]; exact ho2, ho2t⟩
  vnodup := hinv.vnodup
  fieldsOK := fun b hb ob hob j f' t' hf' hft' => by
    obtain ⟨obOld, hbOld⟩ := hinv.logDom b hb
    have hne : ¬ s.nextAddr = b := fun he =>
      absurd (he ▸ hinv.fresh b obOld hbOld) (lt_irrefl b)
    rw [lookupH_alloc_other hne] at hob
    exact hinv.fieldsOK b hb ob hob j f' t' hf' hft'

theorem WInv_register {schema : Schema} {s : WState} {t : TypeId} {x : Addr} {ox : Obj}
    (hinv : WInv schema s) (hnone : lookupV s.visited t = none)
    (hx : lookupH s.heap x = some ox) (hxt : ox.type = t) :
    WInv schema { s with visited := (t, x) :: s.visited } where
  heapLen := hinv.heapLen
  fresh := hinv.fresh
  logDom := hinv.logDom
  vtyped := fun t' c' h => by
    rw [lookupV_cons] at h
    by_cases ht : t = t'
    · subst ht
      rw [if_pos rfl] at h
      have hcx : c' = x := (Option.some.inj h).symm
      subst hcx
      exact ⟨ox, hx, hxt⟩
    · rw [if_neg ht] at h
      exact hinv.vtyped t' c' h
  ptyped := hinv.ptyped
  vnodup := by
    simp only [List.map_cons]
    exact List.nodup_cons.mpr ⟨lookupV_eq_none.mp hnone, hinv.vnodup⟩
  fieldsOK := fun b hb ob hob j f' t' hf' hft' => by
    obtain ⟨c', hc', hs'⟩ := hinv.fieldsOK b hb ob hob j f' t' hf' hft'
    refine ⟨c', ?_, hs'⟩
    rw [lookupV_cons]
    by_cases ht : t = t'
    · subst ht
      rw [hnone] at hc'
      cases hc'
    · rw [if_neg ht]
      exact hc'

theorem WInv_logAppend {schema : Schema} {s : WState} {a : Addr} (hinv : WInv schema s)
    (hdom : ∃ o, lookupH s.heap a = some o)
    (hcan : ∀ (o : Obj), lookupH s.heap a = some o →
      ∀ (j : Nat) (f : StructField) (t : TypeId),
      (schema o.type)[j]? = some f → f.ftype = .capPtr t →
      ∃ c, lookupV s.visited t = some c ∧ o.fields[j]? = some (.ptr (some c))) :
    WInv schema { s with visitLog := s.visitLog ++ [a] } where
  heapLen := hinv.heapLen
  fresh := hinv.fresh
  logDom := fun b hb => by
    rcases List.mem_append.mp hb with h1 | h2
    · exact hinv.logDom b h1
    · rw [List.mem_singleton] at h2
      subst h2
      exact hdom
  vtyped := hinv.vtyped
  ptyped := hinv.ptyped
  vnodup := hinv.vnodup
  fieldsOK := fun b hb ob hob j f' t' hf' hft' => by
    rcases List.mem_append.mp hb with h1 | h2
    · exact hinv.fieldsOK b h1 ob hob j f' t' hf' hft'
    · rw [List.mem_singleton] at h2
      subst h2
      exact hcan ob hob j f' t' hf' hft'

/-! ## Postcondition helper constructors -/

theorem lookupV_head (t : TypeId) (x : Addr) (vs : List (TypeId × Addr)) :
    lookupV ((t, x) :: vs) t = some x := by
  rw [lookupV_cons, if_pos rfl]

theorem getVal_lookup {s : WState} {a : Addr} {o : Obj} (i : Nat)
    (ho : lookupH s.heap a = some o) : getVal s a i = o.fields[i]? := by
  unfold getVal
  rw [ho]

theorem CleanFld_plain {f : StructField} (hft : f.ftype = .plain) : CleanFld f := by
  refine ⟨?_, ?_, ?_⟩ <;> rw [hft]
  · exact fun h => nomatch h
  · exact fun h => nomatch h
  · exact fun u hu => nomatch hu

theorem CleanFld_capPtr {f : StructField} {t : TypeId} (hft : f.ftype = .capPtr t)
    (hanon : f.anonymous = false) : CleanFld f := by
  refine ⟨?_, ?_, fun u _ => hanon⟩ <;> rw [hft]
  · exact fun h => nomatch h
  · exact fun h => nomatch h

theorem PostS_fuelOut (schema : Schema) (fn : Visitor) (own : List Addr) {s : WState}
    (hinv : WInv schema s) : PostS schema fn own s (.fuelOut, s) where
  inv := hinv
  ev := Ev.refl schema s
  grow := by
    refine ⟨[], [], by simp, by simp, ?_, ?_, ?_, ?_, ?_⟩
    · intro b hb
      exact absurd hb (List.not_mem_nil b)
    · intro h
      exact absurd h (by simp)
    · intro h
      exact absurd h (by simp)
    · intro e h
      exact absurd h (by simp)
    · intro h
      exact absurd h (by simp)
  ownClosure := fun h => absurd h (by simp)
  panicNamed := fun msg hm => absurd hm (by simp)

theorem PostS_panic (schema : Schema) (fn : Visitor) (own : List Addr) {s : WState}
    {msg : String} (hinv : WInv schema s)
    (hmsg : (∀ b ∈ own, ∃ o, lookupH s.heap b = some o) → NamedPanic schema msg) :
    PostS schema fn own s (.panicked msg, s) where
  inv := hinv
  ev := Ev.refl schema s
  grow := by
    refine ⟨[], [], by simp, by simp, ?_, ?_, ?_, ?_, ?_⟩
    · intro b hb
      exact absurd hb (List.not_mem_nil b)
    · intro h
      exact absurd h (by simp)
    · intro h
      exact absurd h (by simp)
    · intro e h
      exact absurd h (by simp)
    · intro h
      exact absurd h (by simp)
  ownClosure := fun h => absurd h (by simp)
  panicNamed := fun msg' hm hdom => by
    cases hm
    exact hmsg hdom

/-! ## The recursion step of the field loop -/

theorem walkLoop_step (schema : Schema) (fn : Visitor)
    (rec : Addr → WState → WRes × WState) (tn : TypeId) (a : Addr)
    (f : StructField) (rest : List StructField) (i : Nat)
    (s s2 : WState) (t : TypeId) (x : Addr)
    (Hrec : ∀ (b : Addr) (s' : WState), WInv schema s' → PostS schema fn [b] s' (rec b s'))
    (IH : ∀ (j : Nat) (s' : WState), WInv schema s' → Align schema s' a tn rest j →
      PostS schema fn [] s' (walkLoopF schema fn rec tn a rest j s') ∧
      LoopPost (walkLoopF schema fn rec tn a rest j s') a rest j)
    (hinv2 : WInv schema s2)
    (hev2 : Ev schema s s2)
    (hvis2 : s2.visited = (t, x) :: s.visited)
    (hlog2 : s2.visitLog = s.visitLog)
    (hxdom : ∃ ox, lookupH s2.heap x = some ox ∧ ox.type = t)
    (ha2 : ∃ o2, lookupH s2.heap a = some o2 ∧ o2.type = tn)
    (hf : (schema tn)[i]? = some f)
    (hft : f.ftype = .capPtr t)
    (hanon : f.anonymous = false)
    (hidx : ∀ k, (f :: rest)[k]? = (schema tn)[i + k]?) :
    PostS schema fn [] s
      (match rec x s2 with
        | (.ok, s3) => walkLoopF schema fn rec tn a rest (i + 1)
            (setField s3 a i (lookupV s3.visited t))
        | r => r) ∧
    LoopPost
      (match rec x s2 with
        | (.ok, s3) => walkLoopF schema fn rec tn a rest (i + 1)
            (setField s3 a i (lookupV s3.visited t))
        | r => r) a (f :: rest) i := by
  obtain ⟨ox, hx, hxt⟩ := hxdom
  obtain ⟨o2, ho2, ho2t⟩ := ha2
  have hrec := Hrec x s2 hinv2
  rcases hr : rec x s2 with ⟨r3, s3⟩
  rw [hr] at hrec
  have hcan2 : lookupV s2.visited t = some x := by
    rw [hvis2]
    exact lookupV_head t x s.visited
  cases r3 with
  | ok =>
    simp only [hr]
    have hcan3 : lookupV s3.visited t = some x := hrec.ev.canonMono t x hcan2
    rw [hcan3]
    obtain ⟨o3, ho3, ho3t, ho3l⟩ := hrec.ev.heapPres a o2 ho2
    have ho3tn : o3.type = tn := ho3t.trans ho2t
    have hf3 : (schema o3.type)[i]? = some f := by
      rw [ho3tn]
      exact hf
    have hinv3 := hrec.inv
    have hinv4 := WInv_setField_canon hinv3 ho3 hf3 hft hcan3
    have hev34 : Ev schema s3 (setField s3 a i (some x)) :=
      Ev_setField_canon hinv3 ho3 hf3 hft hcan3
    have hsvis : (setField s3 a i (some x)).visited = s3.visited := rfl
    have hslog : (setField s3 a i (some x)).visitLog = s3.visitLog := rfl
    have halign4 : Align schema (setField s3 a i (some x)) a tn rest (i + 1) := by
      refine ⟨updField o3 i (some x), lookupH_setField_self i _ ho3, by simpa using ho3tn, ?_⟩
      intro k
      have h1 := hidx (k + 1)
      rw [List.getElem?_cons_succ] at h1
      rw [h1]
      congr 1
      omega
    obtain ⟨hpost, hlp⟩ := IH (i + 1) (setField s3 a i (some x)) hinv4 halign4
    have hrange3 : i < o3.fields.length := by
      rw [hinv3.heapLen a o3 ho3, ho3tn]
      exact lt_of_getElem?_some hf
    have hgf4 : getF (setField s3 a i (some x)) a i = some x := by
      rw [getF_eq_some_iff]
      exact getVal_setField_self _ ho3 hrange3
    have hcanF : lookupV (walkLoopF schema fn rec tn a rest (i + 1)
        (setField s3 a i (some x))).2.visited t = some x :=
      hpost.ev.canonMono t x hcan3
    refine ⟨?_, ?_⟩
    · refine { inv := hpost.inv, ev := ?_, grow := ?_, ownClosure := ?_, panicNamed := ?_ }
      · exact Ev.trans hev2 (Ev.trans hrec.ev (Ev.trans hev34 hpost.ev))
      · obtain ⟨nvR, lR, hvR, hlR, hcleanR, hokR, hcntR, herrR, hcloR⟩ := hrec.grow
        obtain ⟨nvT, lT, hvT, hlT, hcleanT, hokT, hcntT, herrT, hcloT⟩ := hpost.grow
        refine ⟨nvT ++ (nvR ++ [(t, x)]), lR ++ lT, ?_, ?_, ?_, ?_, ?_, ?_, ?_⟩
        · rw [hvT, hsvis, hvR, hvis2]
          simp [List.append_assoc]
        · rw [hlT, hslog, hlR, hlog2, List.append_assoc]
        · intro b hb
          rcases List.mem_append.mp hb with hbR | hbT
          · have hb3 : b ∈ s3.visitLog := by
              rw [hlR]
              exact List.mem_append_right _ hbR
            exact CleanAt_mono (Ev.trans hev34 hpost.ev) (hinv3.logDom b hb3) (hcleanR b hbR)
          · exact hcleanT b hbT
        · intro hok b hb
          rcases List.mem_append.mp hb with hbR | hbT
          · exact hokR rfl b hbR
          · exact hokT hok b hbT
        · intro hok b
          have h1 := hcntR rfl b
          have h2 := hcntT hok b
          simp only [List.count_append, List.map_append, List.map_cons, List.map_nil,
            List.count_nil] at h1 h2 ⊢
          omega
        · intro e he
          obtain ⟨L, N, hlt, hfnN, hLnone⟩ := herrT e he
          refine ⟨lR ++ L, N, ?_, hfnN, ?_⟩
          · rw [hlt, List.append_assoc]
          · intro b hb
            rcases List.mem_append.mp hb with h1 | h2
            · exact hokR rfl b h1
            · exact hLnone b h2
        · intro hok t' ht' f' hf' u hu
          simp only [List.map_append, List.mem_append, List.map_cons, List.map_nil,
            List.mem_singleton] at ht'
          rcases ht' with h1 | h2 | h3
          · exact hcloT hok t' h1 f' hf' u hu
          · obtain ⟨c', hc'⟩ := hcloR rfl t' h2 f' hf' u hu
            exact ⟨c', hpost.ev.canonMono u c' hc'⟩
          · subst h3
            have hclo := hrec.ownClosure rfl x (List.mem_singleton_self x) ox hx
            rw [hxt] at hclo
            obtain ⟨c', hc'⟩ := hclo f' hf' u hu
            exact ⟨c', hpost.ev.canonMono u c' hc'⟩
      · intro hok b hb
        exact absurd hb (List.not_mem_nil b)
      · intro msg hmsg hdom
        exact hpost.panicNamed msg hmsg (fun b hb => absurd hb (List.not_mem_nil b))
    · intro hok
      obtain ⟨hfieldT, hcleanT2, htargT⟩ := hlp hok
      refine ⟨?_, ?_, ?_⟩
      · intro k f' t' hk hft'
        cases k with
        | zero =>
          rw [List.getElem?_cons_zero] at hk
          have hff : f' = f := (Option.some.inj hk).symm
          subst hff
          rw [hft] at hft'
          have htt : t = t' := by
            injection hft' with h
          subst htt
          have hfin : getF (walkLoopF schema fn rec tn a rest (i + 1)
              (setField s3 a i (some x))).2 a i = some x := by
            rcases hpost.ev.fieldCap a (updField o3 i (some x)) i f' t
                (lookupH_setField_self i _ ho3) (by simpa using hf3) hft with
              hsame | ⟨c'', hgc, hlc⟩
            · rw [hsame]
              exact hgf4
            · have hcx : c'' = x := Option.some.inj (hlc.symm.trans hcanF)
              rw [hgc, hcx]
          exact ⟨x, hcanF, hfin⟩
        | succ k =>
          rw [List.getElem?_cons_succ] at hk
          obtain ⟨c, hc, hgf⟩ := hfieldT k f' t' hk hft'
          refine ⟨c, hc, ?_⟩
          rw [show i + (k + 1) = (i + 1) + k from by omega]
          exact hgf
      · intro f' hf'
        rcases List.mem_cons.mp hf' with h1 | h2
        · subst h1
          exact CleanFld_capPtr hft hanon
        · exact hcleanT2 f' h2
      · intro f' hf' u hu
        rcases List.mem_cons.mp hf' with h1 | h2
        · subst h1
          rw [hft] at hu
          have htu : t = u := by
            injection hu with h
          subst htu
          exact ⟨x, hcanF⟩
        · exact htargT f' h2 u hu
  | err e =>
    simp only [hr]
    refine ⟨?_, ?_⟩
    · refine ⟨hrec.inv, Ev.trans hev2 hrec.ev, ?_, ?_, ?_⟩
      · obtain ⟨nvR, lR, hvR, hlR, hcleanR, hokR, hcntR, herrR, hcloR⟩ := hrec.grow
        refine ⟨nvR ++ [(t, x)], lR, ?_, ?_, hcleanR, ?_, ?_, ?_, ?_⟩
        · rw [hvR, hvis2]
          simp [List.append_assoc]
        · rw [hlR, hlog2]
        · intro h
          exact absurd h (by simp)
        · intro h
          exact absurd h (by simp)
        · intro e' he'
          exact herrR e' he'
        · intro h
          exact absurd h (by simp)
      · intro h
        exact absurd h (by simp)
      · intro msg hm
        exact absurd hm (by simp)
    · intro h
      exact absurd h (by simp)
  | panicked msg =>
    simp only [hr]
    refine ⟨?_, ?_⟩
    · refine ⟨hrec.inv, Ev.trans hev2 hrec.ev, ?_, ?_, ?_⟩
      · obtain ⟨nvR, lR, hvR, hlR, hcleanR, hokR, hcntR, herrR, hcloR⟩ := hrec.grow
        refine ⟨nvR ++ [(t, x)], lR, ?_, ?_, hcleanR, ?_, ?_, ?_, ?_⟩
        · rw [hvR, hvis2]
          simp [List.append_assoc]
        · rw [hlR, hlog2]
        · intro h
          exact absurd h (by simp)
        · intro h
          exact absurd h (by simp)
        · intro e' he'
          exact absurd he' (by simp)
        · intro h
          exact absurd h (by simp)
      · intro h
        exact absurd h (by simp)
      · intro msg' hm hdom
        have hmm : msg' = msg := by
          injection hm with h
          exact h.symm
        subst hmm
        refine hrec.panicNamed msg' rfl ?_
        intro b hb
        rw [List.mem_singleton] at hb
        subst hb
        exact ⟨ox, hx⟩
    · intro h
      exact absurd h (by simp)
  | fuelOut =>
    simp only [hr]
    refine ⟨?_, ?_⟩
    · refine ⟨hrec.inv, Ev.trans hev2 hrec.ev, ?_, ?_, ?_⟩
      · obtain ⟨nvR, lR, hvR, hlR, hcleanR, hokR, hcntR, herrR, hcloR⟩ := hrec.grow
        refine ⟨nvR ++ [(t, x)], lR, ?_, ?_, hcleanR, ?_, ?_, ?_, ?_⟩
        · rw [hvR, hvis2]
          simp [List.append_assoc]
        · rw [hlR, hlog2]
        · intro h
          exact absurd h (by simp)
        · intro h
          exact absurd h (by simp)
        · intro e' he'
          exact absurd he' (by simp)
        · intro h
          exact absurd h (by simp)
      · intro h
        exact absurd h (by simp)
      · intro msg hm
        exact absurd hm (by simp)
    · intro h
      exact absurd h (by simp)

/-! ## The master specification of the field loop and the walker -/

theorem PostS_ok_nil (schema : Schema) (fn : Visitor) {s : WState}
    (hinv : WInv schema s) : PostS schema fn [] s (.ok, s) where
  inv := hinv
  ev := Ev.refl schema s
  grow := by
    refine ⟨[], [], by simp, by simp, ?_, ?_, ?_, ?_, ?_⟩
    · intro b hb
      exact absurd hb (List.not_mem_nil b)
    · intro _ b hb
      exact absurd hb (List.not_mem_nil b)
    · intro _ b
      simp
    · intro e he
      exact absurd he (by simp)
    · intro _ t ht
      exact absurd ht (by simp)
  ownClosure := fun _ b hb => absurd hb (List.not_mem_nil b)
  panicNamed := fun msg hm => absurd hm (by simp)

theorem walkLoopF_spec (schema : Schema) (fn : Visitor)
    (rec : Addr → WState → WRes × WState)
    (Hrec : ∀ (b : Addr) (s' : WState), WInv schema s' → PostS schema fn [b] s' (rec b s')) :
    ∀ (flds : List StructField) (i : Nat) (s : WState) (tn : TypeId) (a : Addr),
      WInv schema s → Align schema s a tn flds i →
      PostS schema fn [] s (walkLoopF schema fn rec tn a flds i s) ∧
      LoopPost (walkLoopF schema fn rec tn a flds i s) a flds i := by
  intro flds
  induction flds with
  | nil =>
    intro i s tn a hinv _
    refine ⟨PostS_ok_nil schema fn hinv, ?_⟩
    intro _
    refine ⟨?_, ?_, ?_⟩
    · intro k f t hk _
      rw [List.getElem?_nil] at hk
      cases hk
    · intro f hf
      exact absurd hf (List.not_mem_nil f)
    · intro f hf _ _
      exact absurd hf (List.not_mem_nil f)
  | cons f rest ih =>
    intro i s tn a hinv halign
    obtain ⟨o, ho, hot, hidx⟩ := halign
    have hf : (schema tn)[i]? = some f := by
      have h0 := hidx 0
      rw [List.getElem?_cons_zero, Nat.add_zero] at h0
      exact h0.symm
    have hfmem : f ∈ schema tn := List.getElem?_mem hf
    have hfo : (schema o.type)[i]? = some f := by
      rw [hot]
      exact hf
    have htailidx : ∀ k, rest[k]? = (schema tn)[(i + 1) + k]? := by
      intro k
      have h1 := hidx (k + 1)
      rw [List.getElem?_cons_succ] at h1
      rw [h1]
      congr 1
      omega
    cases hft : f.ftype with
    | plain =>
      have hstep : walkLoopF schema fn rec tn a (f :: rest) i s =
          walkLoopF schema fn rec tn a rest (i + 1) s := by
        simp only [walkLoopF, hft]
      rw [hstep]
      obtain ⟨hpost, hlp⟩ := ih (i + 1) s tn a hinv ⟨o, ho, hot, htailidx⟩
      refine ⟨hpost, ?_⟩
      intro hok
      obtain ⟨hfield, hclean, htarg⟩ := hlp hok
      refine ⟨?_, ?_, ?_⟩
      · intro k f' t' hk hft'
        cases k with
        | zero =>
          rw [List.getElem?_cons_zero] at hk
          have hff : f' = f := (Option.some.inj hk).symm
          subst hff
          rw [hft] at hft'
          cases hft'
        | succ k =>
          rw [List.getElem?_cons_succ] at hk
          obtain ⟨c, hc, hgf⟩ := hfield k f' t' hk hft'
          refine ⟨c, hc, ?_⟩
          rw [show i + (k + 1) = (i + 1) + k from by omega]
          exact hgf
      · intro f' hf'
        rcases List.mem_cons.mp hf' with h1 | h2
        · subst h1
          exact CleanFld_plain hft
        · exact hclean f' h2
      · intro f' hf' u hu
        rcases List.mem_cons.mp hf' with h1 | h2
        · subst h1
          rw [hft] at hu
          cases hu
        · exact htarg f' h2 u hu
    | byValue =>
      have hstep : walkLoopF schema fn rec tn a (f :: rest) i s =
          (.panicked (ptrMsg f.name tn), s) := by
        simp only [walkLoopF, hft]
      rw [hstep]
      have hnp : NamedPanic schema (ptrMsg f.name tn) :=
        ⟨tn, f, hfmem, Or.inl ⟨Or.inl hft, rfl⟩⟩
      refine ⟨PostS_panic schema fn [] hinv (fun _ => hnp), ?_⟩
      intro hok
      exact absurd hok (by simp)
    | ifaceKind =>
      have hstep : walkLoopF schema fn rec tn a (f :: rest) i s =
          (.panicked (ptrMsg f.name tn), s) := by
        simp only [walkLoopF, hft]
      rw [hstep]
      have hnp : NamedPanic schema (ptrMsg f.name tn) :=
        ⟨tn, f, hfmem, Or.inl ⟨Or.inr hft, rfl⟩⟩
      refine ⟨PostS_panic schema fn [] hinv (fun _ => hnp), ?_⟩
      intro hok
      exact absurd hok (by simp)
    | capPtr t =>
      by_cases hanon : f.anonymous = true
      · have hstep : walkLoopF schema fn rec tn a (f :: rest) i s =
            (.panicked (anonMsg f.name tn), s) := by
          simp only [walkLoopF, hft, if_pos hanon]
        rw [hstep]
        have hnp : NamedPanic schema (anonMsg f.name tn) :=
          ⟨tn, f, hfmem, Or.inr ⟨⟨t, hft⟩, hanon, rfl⟩⟩
        refine ⟨PostS_panic schema fn [] hinv (fun _ => hnp), ?_⟩
        intro hok
        exact absurd hok (by simp)
      · have hanonF : f.anonymous = false := by
          cases hfa : f.anonymous
          · rfl
          · exact absurd hfa hanon
        cases hlook : lookupV s.visited t with
        | some c =>
          have hstep : walkLoopF schema fn rec tn a (f :: rest) i s =
              walkLoopF schema fn rec tn a rest (i + 1) (setField s a i (some c)) := by
            simp only [walkLoopF, hft, if_neg hanon, hlook]
          rw [hstep]
          have hinv' := WInv_setField_canon hinv ho hfo hft hlook
          have hev' := Ev_setField_canon hinv ho hfo hft hlook
          have halign' : Align schema (setField s a i (some c)) a tn rest (i + 1) := by
            refine ⟨updField o i (some c), lookupH_setField_self i _ ho, by simpa using hot, htailidx⟩
          obtain ⟨hpost, hlp⟩ := ih (i + 1) (setField s a i (some c)) tn a hinv' halign'
          have hrange : i < o.fields.length := by
            rw [hinv.heapLen a o ho, hot]
            exact lt_of_getElem?_some hf
          have hgf' : getF (setField s a i (some c)) a i = some c := by
            rw [getF_eq_some_iff]
            exact getVal_setField_self _ ho hrange
          have hcanF : lookupV (walkLoopF schema fn rec tn a rest (i + 1)
              (setField s a i (some c))).2.visited t = some c :=
            hpost.ev.canonMono t c hlook
          refine ⟨?_, ?_⟩
          · refine ⟨hpost.inv, Ev.trans hev' hpost.ev, ?_, ?_, ?_⟩
            · obtain ⟨nv, l, hv, hl, hclean, hokfn, hcnt, herr, hclo⟩ := hpost.grow
              exact ⟨nv, l, hv, hl, hclean, hokfn, hcnt, herr, hclo⟩
            · intro _ b hb
              exact absurd hb (List.not_mem_nil b)
            · intro msg hm _
              exact hpost.panicNamed msg hm (fun b hb => absurd hb (List.not_mem_nil b))
          · intro hok
            obtain ⟨hfield, hclean, htarg⟩ := hlp hok
            refine ⟨?_, ?_, ?_⟩
            · intro k f' t' hk hft'
              cases k with
              | zero =>
                rw [List.getElem?_cons_zero] at hk
                have hff : f' = f := (Option.some.inj hk).symm
                subst hff
                rw [hft] at hft'
                have htt : t = t' := by
                  injection hft' with h
                subst htt
                have hfin : getF (walkLoopF schema fn rec tn a rest (i + 1)
                    (setField s a i (some c))).2 a i = some c := by
                  rcases hpost.ev.fieldCap a (updField o i (some c)) i f' t
                      (lookupH_setField_self i _ ho) (by simpa using hfo) hft with
                    hsame | ⟨c'', hgc, hlc⟩
                  · rw [hsame]
                    exact hgf'
                  · have hcc : c'' = c := Option.some.inj (hlc.symm.trans hcanF)
                    rw [hgc, hcc]
                exact ⟨c, hcanF, hfin⟩
              | succ k =>
                rw [List.getElem?_cons_succ] at hk
                obtain ⟨c', hc', hgf⟩ := hfield k f' t' hk hft'
                refine ⟨c', hc', ?_⟩
                rw [show i + (k + 1) = (i + 1) + k from by omega]
                exact hgf
            · intro f' hf'
              rcases List.mem_cons.mp hf' with h1 | h2
              · subst h1
                exact CleanFld_capPtr hft hanonF
              · exact hclean f' h2
            · intro f' hf' u hu
              rcases List.mem_cons.mp hf' with h1 | h2
              · subst h1
                rw [hft] at hu
                have htu : t = u := by
                  injection hu with h
                subst htu
                exact ⟨c, hcanF⟩
              · exact htarg f' h2 u hu
        | none =>
          cases hget : getF s a i with
          | none =>
            have hstep : walkLoopF schema fn rec tn a (f :: rest) i s =
                (match rec s.nextAddr
                    { allocState schema s t with visited := (t, s.nextAddr) :: s.visited } with
                  | (.ok, s3) => walkLoopF schema fn rec tn a rest (i + 1)
                      (setField s3 a i (lookupV s3.visited t))
                  | r => r) := by
              simp only [walkLoopF, hft, if_neg hanon, hlook, hget]
            rw [hstep]
            have hinv1 := WInv_alloc t hinv
            have hzo : lookupH (allocState schema s t).heap s.nextAddr =
                some (zeroObj schema t) := lookupH_alloc_self schema s t
            have hlook1 : lookupV (allocState schema s t).visited t = none := hlook
            have hinv2 := WInv_register hinv1 hlook1 hzo (zeroObj_type schema t)
            have hev2 : Ev schema s
                { allocState schema s t with visited := (t, s.nextAddr) :: s.visited } :=
              Ev.trans (Ev_alloc t hinv) (Ev_register s.nextAddr hlook1)
            have hnea : ¬ s.nextAddr = a := fun he =>
              absurd (he ▸ hinv.fresh a o ho) (lt_irrefl a)
            have ha2 : lookupH (allocState schema s t).heap a = some o := by
              rw [lookupH_alloc_other hnea]
              exact ho
            exact walkLoop_step schema fn rec tn a f rest i s _ t s.nextAddr Hrec
              (fun j s' hi ha => ih j s' tn a hi ha) hinv2 hev2 rfl rfl
              ⟨zeroObj schema t, hzo, zeroObj_type schema t⟩ ⟨o, ha2, hot⟩ hf hft hanonF hidx
          | some x =>
            have hstep : walkLoopF schema fn rec tn a (f :: rest) i s =
                (match rec x { s with visited := (t, x) :: s.visited } with
                  | (.ok, s3) => walkLoopF schema fn rec tn a rest (i + 1)
                      (setField s3 a i (lookupV s3.visited t))
                  | r => r) := by
              simp only [walkLoopF, hft, if_neg hanon, hlook, hget]
            rw [hstep]
            have hslot : o.fields[i]? = some (.ptr (some x)) := by
              have hgv := (getF_eq_some_iff s a i x).mp hget
              rw [getVal_lookup i ho] at hgv
              exact hgv
            obtain ⟨ox, hx, hxt⟩ := hinv.ptyped a o i f t x ho hfo hft hslot
            have hinv2 := WInv_register hinv hlook hx hxt
            have hev2 : Ev schema s { s with visited := (t, x) :: s.visited } :=
              Ev_register x hlook
            exact walkLoop_step schema fn rec tn a f rest i s _ t x Hrec
              (fun j s' hi ha => ih j s' tn a hi ha) hinv2 hev2 rfl rfl
              ⟨ox, hx, hxt⟩ ⟨o, ho, hot⟩ hf hft hanonF hidx

theorem walkNode_spec (schema : Schema) (fn : Visitor) :
    ∀ (fuel : Nat) (a : Addr) (s : WState), WInv schema s →
      PostS schema fn [a] s (walkNode schema fn fuel a s) := by
  intro fuel
  induction fuel with
  | zero =>
    intro a s hinv
    exact PostS_fuelOut schema fn [a] hinv
  | succ fuel ihf =>
    intro a s hinv
    cases ho : lookupH s.heap a with
    | none =>
      have hstep : walkNode schema fn (fuel + 1) a s =
          (.panicked "invalid memory address or nil pointer dereference", s) := by
        simp only [walkNode, ho]
      rw [hstep]
      refine PostS_panic schema fn [a] hinv ?_
      intro hdom
      obtain ⟨o, ho'⟩ := hdom a (List.mem_singleton_self a)
      rw [ho] at ho'
      cases ho'
    | some o =>
      have halign : Align schema s a o.type (schema o.type) 0 :=
        ⟨o, ho, rfl, fun k => by rw [Nat.zero_add]⟩
      obtain ⟨hpost, hlp⟩ := walkLoopF_spec schema fn (walkNode schema fn fuel)
        (fun b s' hi => ihf b s' hi) (schema o.type) 0 s o.type a hinv halign
      rcases hlr : walkLoopF schema fn (walkNode schema fn fuel) o.type a (schema o.type) 0 s
        with ⟨rl, s1⟩
      rw [hlr] at hpost hlp
      cases rl with
      | ok =>
        obtain ⟨hfield, hcleanflds, htargflds⟩ := hlp rfl
        obtain ⟨o1, ho1, ho1t, ho1l⟩ := hpost.ev.heapPres a o ho
        have hcan : ∀ (ob : Obj), lookupH s1.heap a = some ob →
            ∀ (j : Nat) (fd : StructField) (t : TypeId),
            (schema ob.type)[j]? = some fd → fd.ftype = .capPtr t →
            ∃ c, lookupV s1.visited t = some c ∧ ob.fields[j]? = some (.ptr (some c)) := by
          intro ob hob j fd t hfj hftj
          have hobo1 : ob = o1 := Option.some.inj (hob.symm.trans ho1)
          subst hobo1
          rw [ho1t] at hfj
          obtain ⟨c, hc, hgf⟩ := hfield j fd t hfj hftj
          rw [Nat.zero_add] at hgf
          refine ⟨c, hc, ?_⟩
          have hgv := (getF_eq_some_iff s1 a j c).mp hgf
          rw [getVal_lookup j ho1] at hgv
          exact hgv
        have hinvL := WInv_logAppend hpost.inv ⟨o1, ho1⟩ hcan
        cases hfa : fn a with
        | some e =>
          have hstep : walkNode schema fn (fuel + 1) a s =
              (.err e, { s1 with visitLog := s1.visitLog ++ [a] }) := by
            simp only [walkNode, ho, hlr, hfa]
          rw [hstep]
          refine ⟨hinvL, Ev.trans hpost.ev (Ev_logAppend schema s1 a), ?_, ?_, ?_⟩
          · obtain ⟨nv, l, hv, hl, hclean, hokfn, hcnt, herr, hclo⟩ := hpost.grow
            refine ⟨nv, l ++ [a], hv, ?_, ?_, ?_, ?_, ?_, ?_⟩
            · show s1.visitLog ++ [a] = s.visitLog ++ (l ++ [a])
              rw [hl]
              rw [List.append_assoc]
            · intro b hb
              rcases List.mem_append.mp hb with h1 | h2
              · exact hclean b h1
              · rw [List.mem_singleton] at h2
                subst h2
                intro ob hob fd hfdmem
                have hobo1 : ob = o1 := Option.some.inj (hob.symm.trans ho1)
                subst hobo1
                rw [ho1t] at hfdmem
                exact hcleanflds fd hfdmem
            · intro hok
              exact absurd hok (by simp)
            · intro hok
              exact absurd hok (by simp)
            · intro e' he'
              have hee : e = e' := by
                injection he' with h
              subst hee
              refine ⟨l, a, rfl, hfa, ?_⟩
              intro b hb
              exact hokfn rfl b hb
            · intro hok
              exact absurd hok (by simp)
          · intro hok
            exact absurd hok (by simp)
          · intro msg hm
            exact absurd hm (by simp)
        | none =>
          have hstep : walkNode schema fn (fuel + 1) a s =
              (.ok, { s1 with visitLog := s1.visitLog ++ [a] }) := by
            simp only [walkNode, ho, hlr, hfa]
          rw [hstep]
          refine ⟨hinvL, Ev.trans hpost.ev (Ev_logAppend schema s1 a), ?_, ?_, ?_⟩
          · obtain ⟨nv, l, hv, hl, hclean, hokfn, hcnt, herr, hclo⟩ := hpost.grow
            refine ⟨nv, l ++ [a], hv, ?_, ?_, ?_, ?_, ?_, ?_⟩
            · show s1.visitLog ++ [a] = s.visitLog ++ (l ++ [a])
              rw [hl]
              rw [List.append_assoc]
            · intro b hb
              rcases List.mem_append.mp hb with h1 | h2
              · exact hclean b h1
              · rw [List.mem_singleton] at h2
                subst h2
                intro ob hob fd hfdmem
                have hobo1 : ob = o1 := Option.some.inj (hob.symm.trans ho1)
                subst hobo1
                rw [ho1t] at hfdmem
                exact hcleanflds fd hfdmem
            · intro _ b hb
              rcases List.mem_append.mp hb with h1 | h2
              · exact hokfn rfl b h1
              · rw [List.mem_singleton] at h2
                subst h2
                exact hfa
            · intro _ b
              have h1 := hcnt rfl b
              simp only [List.count_append, List.count_nil] at h1 ⊢
              simp only [List.count_cons, List.count_nil] at h1 ⊢
              omega
            · intro e' he'
              exact absurd he' (by simp)
            · intro _ t ht fd hfd u hu
              exact hclo rfl t ht fd hfd u hu
          · intro _ b hb ob hob fd hfm u hu
            rw [List.mem_singleton] at hb
            subst hb
            have hobo : ob = o := Option.some.inj (hob.symm.trans ho)
            subst hobo
            exact htargflds fd hfm u hu
          · intro msg hm
            exact absurd hm (by simp)
      | err e' =>
        have hstep : walkNode schema fn (fuel + 1) a s = (.err e', s1) := by
          simp only [walkNode, ho, hlr]
        rw [hstep]
        refine ⟨hpost.inv, hpost.ev, ?_, ?_, ?_⟩
        · obtain ⟨nv, l, hv, hl, hclean, hokfn, hcnt, herr, hclo⟩ := hpost.grow
          refine ⟨nv, l, hv, hl, hclean, ?_, ?_, herr, ?_⟩
          · intro hok
            exact absurd hok (by simp)
          · intro hok
            exact absurd hok (by simp)
          · intro hok
            exact absurd hok (by simp)
        · intro hok
          exact absurd hok (by simp)
        · intro msg hm
          exact absurd hm (by simp)
      | panicked msg =>
        have hstep : walkNode schema fn (fuel + 1) a s = (.panicked msg, s1) := by
          simp only [walkNode, ho, hlr]
        rw [hstep]
        refine ⟨hpost.inv, hpost.ev, ?_, ?_, ?_⟩
        · obtain ⟨nv, l, hv, hl, hclean, hokfn, hcnt, herr, hclo⟩ := hpost.grow
          refine ⟨nv, l, hv, hl, hclean, ?_, ?_, ?_, ?_⟩
          · intro hok
            exact absurd hok (by simp)
          · intro hok
            exact absurd hok (by simp)
          · intro e he
            exact absurd he (by simp)
          · intro hok
            exact absurd hok (by simp)
        · intro hok
          exact absurd hok (by simp)
        · intro msg' hm _
          exact hpost.panicNamed msg' hm (fun b hb => absurd hb (List.not_mem_nil b))
      | fuelOut =>
        have hstep : walkNode schema fn (fuel + 1) a s = (.fuelOut, s1) := by
          simp only [walkNode, ho, hlr]
        rw [hstep]
        refine ⟨hpost.inv, hpost.ev, ?_, ?_, ?_⟩
        · obtain ⟨nv, l, hv, hl, hclean, hokfn, hcnt, herr, hclo⟩ := hpost.grow
          refine ⟨nv, l, hv, hl, hclean, ?_, ?_, ?_, ?_⟩
          · intro hok
            exact absurd hok (by simp)
          · intro hok
            exact absurd hok (by simp)
          · intro e he
            exact absurd he (by simp)
          · intro hok
            exact absurd hok (by simp)
        · intro hok
          exact absurd hok (by simp)
        · intro msg hm
          exact absurd hm (by simp)

/-! ## The initial-state checker and the top-level walk -/

theorem WInv_of_initOK {schema : Schema} {heap : Heap} {n : Addr}
    (h : initOK schema heap n = true) : WInv schema (mkInit heap n) := by
  have hentry : ∀ (a : Addr) (o : Obj), lookupH heap a = some o →
      a < n ∧ o.fields.length = (schema o.type).length ∧
      ∀ (i : Nat) (f : StructField) (v : Val), (schema o.type)[i]? = some f →
        o.fields[i]? = some v → slotOK heap f v = true := by
    intro a o hl
    have hmem := mem_of_lookupH hl
    have he := List.all_eq_true.mp h _ hmem
    unfold entryOK at he
    rw [Bool.and_eq_true, Bool.and_eq_true] at he
    obtain ⟨⟨h1, h2⟩, h3⟩ := he
    refine ⟨of_decide_eq_true h1, of_decide_eq_true h2, ?_⟩
    intro i f v hf hv
    have hzip : (List.zip (schema o.type) o.fields)[i]? = some (f, v) := by
      rw [List.getElem?_zip_eq_some]
      exact ⟨hf, hv⟩
    exact List.all_eq_true.mp h3 _ (List.getElem?_mem hzip)
  refine ⟨?_, ?_, ?_, ?_, ?_, ?_, ?_⟩
  · intro a o hl
    exact (hentry a o hl).2.1
  · intro a o hl
    exact (hentry a o hl).1
  · intro b hb
    exact absurd hb (List.not_mem_nil b)
  · intro t c hc
    cases hc
  · intro a o i f t x hl hf hft hslot
    have h3 := (hentry a o hl).2.2 i f _ hf hslot
    simp only [slotOK, hft] at h3
    cases hx : lookupH heap x with
    | none =>
      rw [hx] at h3
      cases h3
    | some o' =>
      rw [hx] at h3
      simp only [decide_eq_true_eq] at h3
      exact ⟨o', hx, h3⟩
  · simp [mkInit]
  · intro b hb
    exact absurd hb (List.not_mem_nil b)

/-- The master specification of `Walk` on a well-formed initial state. -/
theorem Walk_spec (schema : Schema) (fn : Visitor) (fuel : Nat) (root : Addr)
    (heap : Heap) (n : Addr) (hinit : initOK schema heap n = true) :
    PostS schema fn [root] (mkInit heap n) (Walk schema fn fuel root (mkInit heap n)) :=
  walkNode_spec schema fn fuel root (mkInit heap n) (WInv_of_initOK hinit)

/-! ## The event trace of a walk: erasure and the shape of an aborted run -/

@[simp] theorem visitsOf_nil : visitsOf [] = [] := rfl

@[simp] theorem visitsOf_append (tr tr' : List WEvent) :
    visitsOf (tr ++ tr') = visitsOf tr ++ visitsOf tr' := by
  simp [visitsOf]

@[simp] theorem visitsOf_wire (a : Addr) (i : Nat) (p : Option Addr) (tr : List WEvent) :
    visitsOf (.wire a i p :: tr) = visitsOf tr := rfl

@[simp] theorem visitsOf_visit (b : Addr) (tr : List WEvent) :
    visitsOf (.visit b :: tr) = b :: visitsOf tr := rfl

/-- Erasure and trace shape for the instrumented field loop: its result
and final state are exactly those of `walkLoopF`; the ghost visit log
advances exactly by the visitor calls of the trace, in order; and the
trace of a run aborted by a visitor error ends at the failing visitor
call, with no event — no field overwrite, no visitor call — after it. -/
theorem walkLoopFT_spec (schema : Schema) (fn : Visitor)
    (recT : Addr → WState → (WRes × WState) × List WEvent)
    (rec : Addr → WState → WRes × WState)
    (hfst : ∀ (x : Addr) (s' : WState), (recT x s').1 = rec x s')
    (hlog : ∀ (x : Addr) (s' : WState),
      (recT x s').1.2.visitLog = s'.visitLog ++ visitsOf (recT x s').2)
    (htr : ∀ (x : Addr) (s' : WState) (e : Nat), (recT x s').1.1 = .err e →
      ∃ tr N, (recT x s').2 = tr ++ [.visit N] ∧ fn N = some e)
    (tn : TypeId) (a : Addr) :
    ∀ (flds : List StructField) (i : Nat) (s : WState),
      (walkLoopFT schema fn recT tn a flds i s).1 = walkLoopF schema fn rec tn a flds i s ∧
      (walkLoopFT schema fn recT tn a flds i s).1.2.visitLog =
        s.visitLog ++ visitsOf (walkLoopFT schema fn recT tn a flds i s).2 ∧
      ∀ e, (walkLoopFT schema fn recT tn a flds i s).1.1 = .err e →
        ∃ tr N, (walkLoopFT schema fn recT tn a flds i s).2 = tr ++ [.visit N] ∧
          fn N = some e := by
  intro flds
  induction flds with
  | nil =>
    intro i s
    refine ⟨rfl, by simp [walkLoopFT], ?_⟩
    intro e he
    exact absurd he (by simp [walkLoopFT])
  | cons f rest ih =>
    intro i s
    cases hft : f.ftype with
    | plain =>
      have h1 : walkLoopFT schema fn recT tn a (f :: rest) i s =
          walkLoopFT schema fn recT tn a rest (i + 1) s := by
        simp only [walkLoopFT, hft]
      have h2 : walkLoopF schema fn rec tn a (f :: rest) i s =
          walkLoopF schema fn rec tn a rest (i + 1) s := by
        simp only [walkLoopF, hft]
      rw [h1, h2]
      exact ih (i + 1) s
    | byValue =>
      have h1 : walkLoopFT schema fn recT tn a (f :: rest) i s =
          ((.panicked (ptrMsg f.name tn), s), []) := by
        simp only [walkLoopFT, hft]
      rw [h1]
      refine ⟨?_, by simp, ?_⟩
      · rw [show walkLoopF schema fn rec tn a (f :: rest) i s =
            (.panicked (ptrMsg f.name tn), s) from by simp only [walkLoopF, hft]]
      · intro e he
        exact absurd he (by simp)
    | ifaceKind =>
      have h1 : walkLoopFT schema fn recT tn a (f :: rest) i s =
          ((.panicked (ptrMsg f.name tn), s), []) := by
        simp only [walkLoopFT, hft]
      rw [h1]
      refine ⟨?_, by simp, ?_⟩
      · rw [show walkLoopF schema fn rec tn a (f :: rest) i s =
            (.panicked (ptrMsg f.name tn), s) from by simp only [walkLoopF, hft]]
      · intro e he
        exact absurd he (by simp)
    | capPtr t =>
      by_cases hanon : f.anonymous = true
      · have h1 : walkLoopFT schema fn recT tn a (f :: rest) i s =
            ((.panicked (anonMsg f.name tn), s), []) := by
          simp only [walkLoopFT, hft, if_pos hanon]
        rw [h1]
        refine ⟨?_, by simp, ?_⟩
        · rw [show walkLoopF schema fn rec tn a (f :: rest) i s =
              (.panicked (anonMsg f.name tn), s) from by
            simp only [walkLoopF, hft, if_pos hanon]]
        · intro e he
          exact absurd he (by simp)
      · cases hlook : lookupV s.visited t with
        | some c =>
          have h1 : walkLoopFT schema fn recT tn a (f :: rest) i s =
              ((walkLoopFT schema fn recT tn a rest (i + 1) (setField s a i (some c))).1,
                .wire a i (some c) ::
                  (walkLoopFT schema fn recT tn a rest (i + 1)
                    (setField s a i (some c))).2) := by
            simp only [walkLoopFT, hft, if_neg hanon, hlook]
          have h2 : walkLoopF schema fn rec tn a (f :: rest) i s =
              walkLoopF schema fn rec tn a rest (i + 1) (setField s a i (some c)) := by
            simp only [walkLoopF, hft, if_neg hanon, hlook]
          obtain ⟨ha2, hb2, hc2⟩ := ih (i + 1) (setField s a i (some c))
          refine ⟨?_, ?_, ?_⟩
          · rw [h1, h2]
            exact ha2
          · rw [h1]
            dsimp only
            rw [visitsOf_wire, hb2, setField_visitLog]
          · intro e he
            rw [h1] at he
            dsimp only at he
            obtain ⟨tr2, N, htre, hfN⟩ := hc2 e he
            refine ⟨.wire a i (some c) :: tr2, N, ?_, hfN⟩
            rw [h1]
            dsimp only
            rw [htre, List.cons_append]
        | none =>
          cases hget : getF s a i with
          | none =>
            rcases hr : recT s.nextAddr
                { allocState schema s t with visited := (t, s.nextAddr) :: s.visited }
              with ⟨⟨r3, s3⟩, trR⟩
            have hr' : rec s.nextAddr
                { allocState schema s t with visited := (t, s.nextAddr) :: s.visited } =
                (r3, s3) := by
              rw [← hfst, hr]
            have hlogR : s3.visitLog = s.visitLog ++ visitsOf trR := by
              have h := hlog s.nextAddr
                { allocState schema s t with visited := (t, s.nextAddr) :: s.visited }
              rw [hr] at h
              exact h
            cases r3 with
            | ok =>
              have h1 : walkLoopFT schema fn recT tn a (f :: rest) i s =
                  ((walkLoopFT schema fn recT tn a rest (i + 1)
                      (setField s3 a i (lookupV s3.visited t))).1,
                    trR ++ .wire a i (lookupV s3.visited t) ::
                      (walkLoopFT schema fn recT tn a rest (i + 1)
                        (setField s3 a i (lookupV s3.visited t))).2) := by
                simp only [walkLoopFT, hft, if_neg hanon, hlook, hget, hr]
              have h2 : walkLoopF schema fn rec tn a (f :: rest) i s =
                  walkLoopF schema fn rec tn a rest (i + 1)
                    (setField s3 a i (lookupV s3.visited t)) := by
                simp only [walkLoopF, hft, if_neg hanon, hlook, hget, hr']
              obtain ⟨ha2, hb2, hc2⟩ := ih (i + 1) (setField s3 a i (lookupV s3.visited t))
              refine ⟨?_, ?_, ?_⟩
              · rw [h1, h2]
                exact ha2
              · rw [h1]
                dsimp only
                rw [visitsOf_append, visitsOf_wire, hb2, setField_visitLog, hlogR,
                  List.append_assoc]
              · intro e he
                rw [h1] at he
                dsimp only at he
                obtain ⟨tr2, N, htre, hfN⟩ := hc2 e he
                refine ⟨trR ++ .wire a i (lookupV s3.visited t) :: tr2, N, ?_, hfN⟩
                rw [h1]
                dsimp only
                rw [htre]
                simp
            | err e0 =>
              have h1 : walkLoopFT schema fn recT tn a (f :: rest) i s =
                  ((.err e0, s3), trR) := by
                simp only [walkLoopFT, hft, if_neg hanon, hlook, hget, hr]
              have h2 : walkLoopF schema fn rec tn a (f :: rest) i s = (.err e0, s3) := by
                simp only [walkLoopF, hft, if_neg hanon, hlook, hget, hr']
              refine ⟨?_, ?_, ?_⟩
              · rw [h1, h2]
              · rw [h1]
                exact hlogR
              · intro e he
                rw [h1] at he
                dsimp only at he
                have he0 : e0 = e := by
                  injection he
                subst he0
                have hE := htr s.nextAddr
                  { allocState schema s t with visited := (t, s.nextAddr) :: s.visited }
                  e0 (by rw [hr])
                obtain ⟨trE, N, htrE, hfN⟩ := hE
                rw [hr] at htrE
                refine ⟨trE, N, ?_, hfN⟩
                rw [h1]
                exact htrE
            | panicked m =>
              have h1 : walkLoopFT schema fn recT tn a (f :: rest) i s =
                  ((.panicked m, s3), trR) := by
                simp only [walkLoopFT, hft, if_neg hanon, hlook, hget, hr]
              have h2 : walkLoopF schema fn rec tn a (f :: rest) i s =
                  (.panicked m, s3) := by
                simp only [walkLoopF, hft, if_neg hanon, hlook, hget, hr']
              refine ⟨?_, ?_, ?_⟩
              · rw [h1, h2]
              · rw [h1]
                exact hlogR
              · intro e he
                rw [h1] at he
                dsimp only at he
                simp at he
            | fuelOut =>
              have h1 : walkLoopFT schema fn recT tn a (f :: rest) i s =
                  ((.fuelOut, s3), trR) := by
                simp only [walkLoopFT, hft, if_neg hanon, hlook, hget, hr]
              have h2 : walkLoopF schema fn rec tn a (f :: rest) i s = (.fuelOut, s3) := by
                simp only [walkLoopF, hft, if_neg hanon, hlook, hget, hr']
              refine ⟨?_, ?_, ?_⟩
              · rw [h1, h2]
              · rw [h1]
                exact hlogR
              · intro e he
                rw [h1] at he
                dsimp only at he
                simp at he
          | some x =>
            rcases hr : recT x { s with visited := (t, x) :: s.visited }
              with ⟨⟨r3, s3⟩, trR⟩
            have hr' : rec x { s with visited := (t, x) :: s.visited } = (r3, s3) := by
              rw [← hfst, hr]
            have hlogR : s3.visitLog = s.visitLog ++ visitsOf trR := by
              have h := hlog x { s with visited := (t, x) :: s.visited }
              rw [hr] at h
              exact h
            cases r3 with
            | ok =>
              have h1 : walkLoopFT schema fn recT tn a (f :: rest) i s =
                  ((walkLoopFT schema fn recT tn a rest (i + 1)
                      (setField s3 a i (lookupV s3.visited t))).1,
                    trR ++ .wire a i (lookupV s3.visited t) ::
                      (walkLoopFT schema fn recT tn a rest (i + 1)
                        (setField s3 a i (lookupV s3.visited t))).2) := by
                simp only [walkLoopFT, hft, if_neg hanon, hlook, hget, hr]
              have h2 : walkLoopF schema fn rec tn a (f :: rest) i s =
                  walkLoopF schema fn rec tn a rest (i + 1)
                    (setField s3 a i (lookupV s3.visited t)) := by
                simp only [walkLoopF, hft, if_neg hanon, hlook, hget, hr']
              obtain ⟨ha2, hb2, hc2⟩ := ih (i + 1) (setField s3 a i (lookupV s3.visited t))
              refine ⟨?_, ?_, ?_⟩
              · rw [h1, h2]
                exact ha2
              · rw [h1]
                dsimp only
                rw [visitsOf_append, visitsOf_wire, hb2, setField_visitLog, hlogR,
                  List.append_assoc]
              · intro e he
                rw [h1] at he
                dsimp only at he
                obtain ⟨tr2, N, htre, hfN⟩ := hc2 e he
                refine ⟨trR ++ .wire a i (lookupV s3.visited t) :: tr2, N, ?_, hfN⟩
                rw [h1]
                dsimp only
                rw [htre]
                simp
            | err e0 =>
              have h1 : walkLoopFT schema fn recT tn a (f :: rest) i s =
                  ((.err e0, s3), trR) := by
                simp only [walkLoopFT, hft, if_neg hanon, hlook, hget, hr]
              have h2 : walkLoopF schema fn rec tn a (f :: rest) i s = (.err e0, s3) := by
                simp only [walkLoopF, hft, if_neg hanon, hlook, hget, hr']
              refine ⟨?_, ?_, ?_⟩
              · rw [h1, h2]
              · rw [h1]
                exact hlogR
              · intro e he
                rw [h1] at he
                dsimp only at he
                have he0 : e0 = e := by
                  injection he
                subst he0
                have hE := htr x { s with visited := (t, x) :: s.visited } e0 (by rw [hr])
                obtain ⟨trE, N, htrE, hfN⟩ := hE
                rw [hr] at htrE
                refine ⟨trE, N, ?_, hfN⟩
                rw [h1]
                exact htrE
            | panicked m =>
              have h1 : walkLoopFT schema fn recT tn a (f :: rest) i s =
                  ((.panicked m, s3), trR) := by
                simp only [walkLoopFT, hft, if_neg hanon, hlook, hget, hr]
              have h2 : walkLoopF schema fn rec tn a (f :: rest) i s =
                  (.panicked m, s3) := by
                simp only [walkLoopF, hft, if_neg hanon, hlook, hget, hr']
              refine ⟨?_, ?_, ?_⟩
              · rw [h1, h2]
              · rw [h1]
                exact hlogR
              · intro e he
                rw [h1] at he
                dsimp only at he
                simp at he
            | fuelOut =>
              have h1 : walkLoopFT schema fn recT tn a (f :: rest) i s =
                  ((.fuelOut, s3), trR) := by
                simp only [walkLoopFT, hft, if_neg hanon, hlook, hget, hr]
              have h2 : walkLoopF schema fn rec tn a (f :: rest) i s = (.fuelOut, s3) := by
                simp only [walkLoopF, hft, if_neg hanon, hlook, hget, hr']
              refine ⟨?_, ?_, ?_⟩
              · rw [h1, h2]
              · rw [h1]
                exact hlogR
              · intro e he
                rw [h1] at he
                dsimp only at he
                simp at he

/-- Erasure and trace shape for the instrumented walker: its result and
final state are exactly those of `walkNode`; the ghost visit log
advances exactly by the trace's visitor calls; and the trace of a run
aborted by a visitor error ends at the failing visitor call, with no
event after it. -/
theorem walkNodeT_spec (schema : Schema) (fn : Visitor) :
    ∀ (fuel : Nat) (a : Addr) (s : WState),
      (walkNodeT schema fn fuel a s).1 = walkNode schema fn fuel a s ∧
      (walkNodeT schema fn fuel a s).1.2.visitLog =
        s.visitLog ++ visitsOf (walkNodeT schema fn fuel a s).2 ∧
      ∀ e, (walkNodeT schema fn fuel a s).1.1 = .err e →
        ∃ tr N, (walkNodeT schema fn fuel a s).2 = tr ++ [.visit N] ∧ fn N = some e := by
  intro fuel
  induction fuel with
  | zero =>
    intro a s
    refine ⟨rfl, by simp [walkNodeT], ?_⟩
    intro e he
    exact absurd he (by simp [walkNodeT])
  | succ fuel ih =>
    intro a s
    have hL := walkLoopFT_spec schema fn (walkNodeT schema fn fuel) (walkNode schema fn fuel)
      (fun x s' => (ih x s').1) (fun x s' => (ih x s').2.1) (fun x s' e => (ih x s').2.2 e)
    cases hlk : lookupH s.heap a with
    | none =>
      have h1 : walkNodeT schema fn (fuel + 1) a s =
          ((.panicked "invalid memory address or nil pointer dereference", s), []) := by
        simp only [walkNodeT, hlk]
      have h2 : walkNode schema fn (fuel + 1) a s =
          (.panicked "invalid memory address or nil pointer dereference", s) := by
        simp only [walkNode, hlk]
      refine ⟨?_, ?_, ?_⟩
      · rw [h1, h2]
      · rw [h1]
        simp
      · intro e he
        rw [h1] at he
        dsimp only at he
        simp at he
    | some o =>
      rcases hres : walkLoopFT schema fn (walkNodeT schema fn fuel) o.type a
          (schema o.type) 0 s with ⟨⟨r1, s1⟩, trL⟩
      obtain ⟨hfstL, hlogL, htrL⟩ := hL o.type a (schema o.type) 0 s
      rw [hres] at hfstL hlogL htrL
      have hplain : walkLoopF schema fn (walkNode schema fn fuel) o.type a
          (schema o.type) 0 s = (r1, s1) := hfstL.symm
      have hlogL' : s1.visitLog = s.visitLog ++ visitsOf trL := hlogL
      cases r1 with
      | ok =>
        cases hfa : fn a with
        | some e0 =>
          have h1 : walkNodeT schema fn (fuel + 1) a s =
              ((.err e0, { s1 with visitLog := s1.visitLog ++ [a] }), trL ++ [.visit a]) := by
            simp only [walkNodeT, hlk, hres, hfa]
          have h2 : walkNode schema fn (fuel + 1) a s =
              (.err e0, { s1 with visitLog := s1.visitLog ++ [a] }) := by
            simp only [walkNode, hlk, hplain, hfa]
          refine ⟨?_, ?_, ?_⟩
          · rw [h1, h2]
          · rw [h1]
            dsimp only
            rw [visitsOf_append, visitsOf_visit, visitsOf_nil, hlogL', List.append_assoc]
          · intro e he
            rw [h1] at he
            dsimp only at he
            have he0 : e0 = e := by
              injection he
            subst he0
            refine ⟨trL, a, ?_, hfa⟩
            rw [h1]
        | none =>
          have h1 : walkNodeT schema fn (fuel + 1) a s =
              ((.ok, { s1 with visitLog := s1.visitLog ++ [a] }), trL ++ [.visit a]) := by
            simp only [walkNodeT, hlk, hres, hfa]
          have h2 : walkNode schema fn (fuel + 1) a s =
              (.ok, { s1 with visitLog := s1.visitLog ++ [a] }) := by
            simp only [walkNode, hlk, hplain, hfa]
          refine ⟨?_, ?_, ?_⟩
          · rw [h1, h2]
          · rw [h1]
            dsimp only
            rw [visitsOf_append, visitsOf_visit, visitsOf_nil, hlogL', List.append_assoc]
          · intro e he
            rw [h1] at he
            dsimp only at he
            simp at he
      | err e0 =>
        have h1 : walkNodeT schema fn (fuel + 1) a s = ((.err e0, s1), trL) := by
          simp only [walkNodeT, hlk, hres]
        have h2 : walkNode schema fn (fuel + 1) a s = (.err e0, s1) := by
          simp only [walkNode, hlk, hplain]
        refine ⟨?_, ?_, ?_⟩
        · rw [h1, h2]
        · rw [h1]
          exact hlogL'
        · intro e he
          rw [h1] at he
          dsimp only at he
          have he0 : e0 = e := by
            injection he
          subst he0
          obtain ⟨tr2, N, htre, hfN⟩ := htrL e0 rfl
          refine ⟨tr2, N, ?_, hfN⟩
          rw [h1]
          exact htre
      | panicked m =>
        have h1 : walkNodeT schema fn (fuel + 1) a s = ((.panicked m, s1), trL) := by
          simp only [walkNodeT, hlk, hres]
        have h2 : walkNode schema fn (fuel + 1) a s = (.panicked m, s1) := by
          simp only [walkNode, hlk, hplain]
        refine ⟨?_, ?_, ?_⟩
        · rw [h1, h2]
        · rw [h1]
          exact hlogL'
        · intro e he
          rw [h1] at he
          dsimp only at he
          simp at he
      | fuelOut =>
        have h1 : walkNodeT schema fn (fuel + 1) a s = ((.fuelOut, s1), trL) := by
          simp only [walkNodeT, hlk, hres]
        have h2 : walkNode schema fn (fuel + 1) a s = (.fuelOut, s1) := by
          simp only [walkNode, hlk, hplain]
        refine ⟨?_, ?_, ?_⟩
        · rw [h1, h2]
        · rw [h1]
          exact hlogL'
        · intro e he
          rw [h1] at he
          dsimp only at he
          simp at he

/-- Erasure and trace shape for the instrumented `Walk`. -/
theorem WalkT_spec (schema : Schema) (fn : Visitor) (fuel : Nat) (root : Addr)
    (s : WState) :
    (WalkT schema fn fuel root s).1 = Walk schema fn fuel root s ∧
    (WalkT schema fn fuel root s).1.2.visitLog = visitsOf (WalkT schema fn fuel root s).2 ∧
    ∀ e, (WalkT schema fn fuel root s).1.1 = .err e →
      ∃ tr N, (WalkT schema fn fuel root s).2 = tr ++ [.visit N] ∧ fn N = some e := by
  obtain ⟨h1, h2, h3⟩ := walkNodeT_spec schema fn fuel root
    { s with visited := [], visitLog := [] }
  exact ⟨h1, h2, h3⟩

/-! ## Miscellaneous consequences -/

theorem BadFld_not_clean {f : StructField} (hb : BadFld f) (hc : CleanFld f) : False := by
  obtain ⟨h1, h2, h3⟩ := hc
  rcases hb with hb | hb | ⟨u, hu, ha⟩
  · exact h1 hb
  · exact h2 hb
  · rw [h3 u hu] at ha
    cases ha

theorem lookupV_of_mem_nodup : ∀ {vs : List (TypeId × Addr)} {t : TypeId} {c : Addr},
    (vs.map Prod.fst).Nodup → (t, c) ∈ vs → lookupV vs t = some c
  | [], t, c, _, hm => absurd hm (List.not_mem_nil _)
  | (u, c') :: vs, t, c, hnd, hm => by
    rw [List.map_cons, List.nodup_cons] at hnd
    rcases List.mem_cons.mp hm with he | hm2
    · cases he
      rw [lookupV_cons, if_pos rfl]
    · have hne : ¬ u = t := by
        intro he2
        subst he2
        exact hnd.1 (List.mem_map.mpr ⟨(u, c), hm2, rfl⟩)
      rw [lookupV_cons, if_neg hne]
      exact lookupV_of_mem_nodup hnd.2 hm2

theorem visited_snd_nodup {schema : Schema} {s : WState} (hinv : WInv schema s) :
    (s.visited.map Prod.snd).Nodup := by
  refine (List.nodup_map_iff_inj_on (List.Nodup.of_map Prod.fst hinv.vnodup)).mpr ?_
  intro p hp q hq hpq
  obtain ⟨t1, c1⟩ := p
  obtain ⟨t2, c2⟩ := q
  simp only at hpq
  subst hpq
  have h1 := lookupV_of_mem_nodup hinv.vnodup hp
  have h2 := lookupV_of_mem_nodup hinv.vnodup hq
  obtain ⟨o1, ho1, ht1⟩ := hinv.vtyped t1 c1 h1
  obtain ⟨o2, ho2, ht2⟩ := hinv.vtyped t2 c1 h2
  have ho12 : o1 = o2 := Option.some.inj (ho1.symm.trans ho2)
  subst ho12
  rw [show t1 = t2 from ht1.symm.trans ht2]

theorem getVal_some_inv {s : WState} {a : Addr} {i : Nat} {w : Val}
    (h : getVal s a i = some w) :
    ∃ o, lookupH s.heap a = some o ∧ o.fields[i]? = some w := by
  unfold getVal at h
  cases hl : lookupH s.heap a with
  | none =>
    rw [hl] at h
    cases h
  | some o =>
    rw [hl] at h
    exact ⟨o, rfl, h⟩

theorem updField_get_cases {o : Obj} {i j : Nat} {p : Option Addr} {w : Val}
    (h : (updField o i p).fields[j]? = some w) :
    w = .ptr p ∨ o.fields[j]? = some w := by
  by_cases hji : j = i
  · subst hji
    by_cases hr : j < o.fields.length
    · rw [updField_get_self _ hr] at h
      exact Or.inl (Option.some.inj h).symm
    · have hnone : (updField o j p).fields[j]? = none := by
        apply List.getElem?_eq_none
        rw [updField_length]
        omega
      rw [hnone] at h
      cases h
  · rw [updField_get_ne _ hji] at h
    exact Or.inr h

/-! ## Termination: sufficient fuel is never exhausted -/

theorem measV_mono {T : Finset TypeId} {s s' : WState}
    (h : ∃ nv, s'.visited = nv ++ s.visited) : measV T s' ≤ measV T s := by
  obtain ⟨nv, hnv⟩ := h
  apply Finset.card_le_card
  intro u hu
  simp only [Finset.mem_filter] at hu ⊢
  refine ⟨hu.1, ?_⟩
  intro hmem
  apply hu.2
  rw [hnv, List.map_append]
  exact List.mem_append_right _ hmem

theorem measV_register {T : Finset TypeId} {s : WState} {t : TypeId} {x : Addr}
    (htT : t ∈ T) (hnone : lookupV s.visited t = none) :
    measV T { s with visited := (t, x) :: s.visited } < measV T s := by
  apply Finset.card_lt_card
  have hsub : T.filter
        (fun u => u ∉ (({ s with visited := (t, x) :: s.visited } : WState)).visited.map Prod.fst) ⊆
      T.filter (fun u => u ∉ s.visited.map Prod.fst) := by
    intro u hu
    simp only [Finset.mem_filter, List.map_cons, List.mem_cons] at hu ⊢
    exact ⟨hu.1, fun hm => hu.2 (Or.inr hm)⟩
  rw [Finset.ssubset_iff_of_subset hsub]
  refine ⟨t, ?_, ?_⟩
  · simp only [Finset.mem_filter]
    exact ⟨htT, lookupV_eq_none.mp hnone⟩
  · intro hcon
    simp only [Finset.mem_filter, List.map_cons, List.mem_cons] at hcon
    exact hcon.2 (Or.inl trivial)

theorem walkLoopF_no_fuelOut (schema : Schema) (fn : Visitor) (T : Finset TypeId)
    (hT : TargetsIn schema T) (fuel : Nat)
    (hrecF : ∀ (b : Addr) (s' : WState), WInv schema s' → measV T s' < fuel →
      ¬ (walkNode schema fn fuel b s').1 = .fuelOut)
    (hrecP : ∀ (b : Addr) (s' : WState), WInv schema s' →
      PostS schema fn [b] s' (walkNode schema fn fuel b s')) :
    ∀ (flds : List StructField) (i : Nat) (s : WState) (tn : TypeId) (a : Addr),
      WInv schema s → Align schema s a tn flds i → measV T s ≤ fuel →
      ¬ (walkLoopF schema fn (walkNode schema fn fuel) tn a flds i s).1 = .fuelOut := by
  intro flds
  induction flds with
  | nil =>
    intro i s tn a _ _ _
    simp [walkLoopF]
  | cons f rest ih =>
    intro i s tn a hinv halign hm
    obtain ⟨o, ho, hot, hidx⟩ := halign
    have hf : (schema tn)[i]? = some f := by
      have h0 := hidx 0
      rw [List.getElem?_cons_zero, Nat.add_zero] at h0
      exact h0.symm
    have hfmem : f ∈ schema tn := List.getElem?_mem hf
    have hfo : (schema o.type)[i]? = some f := by
      rw [hot]
      exact hf
    have htailidx : ∀ k, rest[k]? = (schema tn)[(i + 1) + k]? := by
      intro k
      have h1 := hidx (k + 1)
      rw [List.getElem?_cons_succ] at h1
      rw [h1]
      congr 1
      omega
    cases hft : f.ftype with
    | plain =>
      simp only [walkLoopF, hft]
      exact ih (i + 1) s tn a hinv ⟨o, ho, hot, htailidx⟩ hm
    | byValue =>
      simp [walkLoopF, hft]
    | ifaceKind =>
      simp [walkLoopF, hft]
    | capPtr t =>
      by_cases hanon : f.anonymous = true
      · simp [walkLoopF, hft, if_pos hanon]
      · cases hlook : lookupV s.visited t with
        | some c =>
          simp only [walkLoopF, hft, if_neg hanon, hlook]
          exact ih (i + 1) _ tn a (WInv_setField_canon hinv ho hfo hft hlook)
            ⟨updField o i (some c), lookupH_setField_self i _ ho, by simpa using hot, htailidx⟩ hm
        | none =>
          have htT : t ∈ T := hT tn f hfmem t hft
          cases hget : getF s a i with
          | none =>
            simp only [walkLoopF, hft, if_neg hanon, hlook, hget]
            have hinv1 := WInv_alloc t hinv
            have hzo := lookupH_alloc_self schema s t
            have hlook1 : lookupV (allocState schema s t).visited t = none := hlook
            have hinv2 : WInv schema
                { allocState schema s t with visited := (t, s.nextAddr) :: s.visited } :=
              WInv_register hinv1 hlook1 hzo (zeroObj_type schema t)
            have hm2 : measV T
                { allocState schema s t with visited := (t, s.nextAddr) :: s.visited } <
                measV T s := measV_register htT hlook
            have hmlt : measV T
                { allocState schema s t with visited := (t, s.nextAddr) :: s.visited } < fuel :=
              lt_of_lt_of_le hm2 hm
            rcases hr : walkNode schema fn fuel s.nextAddr
              { allocState schema s t with visited := (t, s.nextAddr) :: s.visited }
              with ⟨r3, s3⟩
            have hrecp := hrecP s.nextAddr _ hinv2
            rw [hr] at hrecp
            cases r3 with
            | ok =>
              show ¬ (walkLoopF schema fn (walkNode schema fn fuel) tn a rest (i + 1)
                (setField s3 a i (lookupV s3.visited t))).1 = WRes.fuelOut
              have hnea : ¬ s.nextAddr = a := fun he =>
                absurd (he ▸ hinv.fresh a o ho) (lt_irrefl a)
              have ha2 : lookupH (allocState schema s t).heap a = some o := by
                rw [lookupH_alloc_other hnea]
                exact ho
              obtain ⟨o3, ho3, ho3t, ho3l⟩ := hrecp.ev.heapPres a o ha2
              have ho3tn : o3.type = tn := ho3t.trans hot
              have hf3 : (schema o3.type)[i]? = some f := by
                rw [ho3tn]
                exact hf
              have hcan3 : lookupV s3.visited t = some s.nextAddr :=
                hrecp.ev.canonMono t s.nextAddr (lookupV_head t s.nextAddr s.visited)
              rw [hcan3]
              have hinv4 := WInv_setField_canon hrecp.inv ho3 hf3 hft hcan3
              have hm3 : measV T s3 ≤ fuel :=
                le_trans (measV_mono hrecp.ev.visExt) (le_of_lt hmlt)
              exact ih (i + 1) _ tn a hinv4
                ⟨updField o3 i (some s.nextAddr), lookupH_setField_self i _ ho3,
                  by simpa using ho3tn, htailidx⟩ hm3
            | err e =>
              simp
            | panicked msg =>
              simp
            | fuelOut =>
              exact absurd (congrArg Prod.fst hr) (hrecF s.nextAddr _ hinv2 hmlt)
          | some x =>
            simp only [walkLoopF, hft, if_neg hanon, hlook, hget]
            have hslot : o.fields[i]? = some (.ptr (some x)) := by
              have hgv := (getF_eq_some_iff s a i x).mp hget
              rw [getVal_lookup i ho] at hgv
              exact hgv
            obtain ⟨ox, hx, hxt⟩ := hinv.ptyped a o i f t x ho hfo hft hslot
            have hinv2 := WInv_register hinv hlook hx hxt
            have hm2 : measV T { s with visited := (t, x) :: s.visited } < measV T s :=
              measV_register htT hlook
            have hmlt : measV T { s with visited := (t, x) :: s.visited } < fuel :=
              lt_of_lt_of_le hm2 hm
            rcases hr : walkNode schema fn fuel x { s with visited := (t, x) :: s.visited }
              with ⟨r3, s3⟩
            have hrecp := hrecP x _ hinv2
            rw [hr] at hrecp
            cases r3 with
            | ok =>
              show ¬ (walkLoopF schema fn (walkNode schema fn fuel) tn a rest (i + 1)
                (setField s3 a i (lookupV s3.visited t))).1 = WRes.fuelOut
              have ha2 : lookupH ({ s with visited := (t, x) :: s.visited } : WState).heap a =
                  some o := ho
              obtain ⟨o3, ho3, ho3t, ho3l⟩ := hrecp.ev.heapPres a o ha2
              have ho3tn : o3.type = tn := ho3t.trans hot
              have hf3 : (schema o3.type)[i]? = some f := by
                rw [ho3tn]
                exact hf
              have hcan3 : lookupV s3.visited t = some x :=
                hrecp.ev.canonMono t x (lookupV_head t x s.visited)
              rw [hcan3]
              have hinv4 := WInv_setField_canon hrecp.inv ho3 hf3 hft hcan3
              have hm3 : measV T s3 ≤ fuel :=
                le_trans (measV_mono hrecp.ev.visExt) (le_of_lt hmlt)
              exact ih (i + 1) _ tn a hinv4
                ⟨updField o3 i (some x), lookupH_setField_self i _ ho3,
                  by simpa using ho3tn, htailidx⟩ hm3
            | err e =>
              simp
            | panicked msg =>
              simp
            | fuelOut =>
              exact absurd (congrArg Prod.fst hr) (hrecF x _ hinv2 hmlt)

theorem walkNode_no_fuelOut (schema : Schema) (fn : Visitor) (T : Finset TypeId)
    (hT : TargetsIn schema T) :
    ∀ (fuel : Nat) (a : Addr) (s : WState), WInv schema s → measV T s < fuel →
      ¬ (walkNode schema fn fuel a s).1 = .fuelOut := by
  intro fuel
  induction fuel with
  | zero =>
    intro a s _ hm
    exact absurd hm (Nat.not_lt_zero _)
  | succ fuel ihf =>
    intro a s hinv hm
    cases ho : lookupH s.heap a with
    | none =>
      simp [walkNode, ho]
    | some o =>
      simp only [walkNode, ho]
      rcases hlr : walkLoopF schema fn (walkNode schema fn fuel) o.type a (schema o.type) 0 s
        with ⟨rl, s1⟩
      have hloop := walkLoopF_no_fuelOut schema fn T hT fuel ihf
        (fun b s' hi => walkNode_spec schema fn fuel b s' hi)
        (schema o.type) 0 s o.type a hinv ⟨o, ho, rfl, fun k => by rw [Nat.zero_add]⟩
        (Nat.le_of_lt_succ hm)
      rw [hlr] at hloop
      cases rl with
      | ok =>
        cases hfa : fn a <;> simp [hfa]
      | err e =>
        simp
      | panicked msg =>
        simp
      | fuelOut =>
        exact absurd rfl hloop

/-! ## The walk never creates references to an unreferenced address -/

theorem AvoidR_setFieldP {s : WState} {a : Addr} {i : Nat} {p : Option Addr} {r0 : Addr}
    (hav : AvoidR s r0) (hp : ¬ p = some r0) : AvoidR (setField s a i p) r0 where
  noField := fun a' o' j hl => by
    intro hslot
    rcases lookupH_setField_cases hl with ⟨hba, o, ho, hou⟩ | ⟨_, hl'⟩
    · subst hba
      subst hou
      rcases updField_get_cases hslot with h1 | h2
      · apply hp
        have h3 : Val.ptr (some r0) = Val.ptr p := h1
        injection h3 with h4
        exact h4.symm
      · exact hav.noField a' o j ho h2
    · exact hav.noField a' o' j hl' hslot
  noCanon := hav.noCanon
  lt := hav.lt

theorem AvoidR_alloc {schema : Schema} {s : WState} {t : TypeId} {r0 : Addr}
    (hav : AvoidR s r0) : AvoidR (allocState schema s t) r0 where
  noField := fun a' o' j hl => by
    intro hslot
    rcases lookupH_alloc_cases hl with ⟨_, hoz⟩ | ⟨_, hl'⟩
    · subst hoz
      exact zeroObj_no_ptrSome schema t j r0 hslot
    · exact hav.noField a' o' j hl' hslot
  noCanon := hav.noCanon
  lt := Nat.lt_succ_of_lt hav.lt

theorem AvoidR_register {s : WState} {t : TypeId} {x r0 : Addr}
    (hav : AvoidR s r0) (hx : ¬ x = r0) :
    AvoidR { s with visited := (t, x) :: s.visited } r0 where
  noField := hav.noField
  noCanon := fun t' c hc => by
    rw [lookupV_cons] at hc
    by_cases ht : t = t'
    · rw [if_pos ht] at hc
      rw [← Option.some.inj hc]
      exact hx
    · rw [if_neg ht] at hc
      exact hav.noCanon t' c hc
  lt := hav.lt

theorem AvoidR_logAppend {s : WState} {a r0 : Addr} (hav : AvoidR s r0) :
    AvoidR { s with visitLog := s.visitLog ++ [a] } r0 where
  noField := hav.noField
  noCanon := hav.noCanon
  lt := hav.lt

theorem walkLoopF_avoid (schema : Schema) (fn : Visitor)
    (rec : Addr → WState → WRes × WState) (r0 : Addr)
    (hrec : ∀ (b : Addr) (s' : WState), AvoidR s' r0 → AvoidR (rec b s').2 r0) :
    ∀ (flds : List StructField) (i : Nat) (s : WState) (tn : TypeId) (a : Addr),
      AvoidR s r0 → AvoidR (walkLoopF schema fn rec tn a flds i s).2 r0 := by
  intro flds
  induction flds with
  | nil =>
    intro i s tn a hav
    exact hav
  | cons f rest ih =>
    intro i s tn a hav
    cases hft : f.ftype with
    | plain =>
      simp only [walkLoopF, hft]
      exact ih (i + 1) s tn a hav
    | byValue =>
      simp only [walkLoopF, hft]
      exact hav
    | ifaceKind =>
      simp only [walkLoopF, hft]
      exact hav
    | capPtr t =>
      by_cases hanon : f.anonymous = true
      · simp only [walkLoopF, hft, if_pos hanon]
        exact hav
      · cases hlook : lookupV s.visited t with
        | some c =>
          simp only [walkLoopF, hft, if_neg hanon, hlook]
          have hcr : ¬ (some c : Option Addr) = some r0 := by
            intro hcon
            exact hav.noCanon t c hlook (Option.some.inj hcon)
          exact ih (i + 1) _ tn a (AvoidR_setFieldP hav hcr)
        | none =>
          cases hget : getF s a i with
          | none =>
            simp only [walkLoopF, hft, if_neg hanon, hlook, hget]
            have hxn : ¬ s.nextAddr = r0 := fun he =>
              absurd (he ▸ hav.lt) (lt_irrefl r0)
            have hav2 : AvoidR
                { allocState schema s t with visited := (t, s.nextAddr) :: s.visited } r0 :=
              AvoidR_register (AvoidR_alloc hav) hxn
            rcases hr : rec s.nextAddr
              { allocState schema s t with visited := (t, s.nextAddr) :: s.visited }
              with ⟨r3, s3⟩
            have hav3 : AvoidR s3 r0 := by
              have hh := hrec s.nextAddr _ hav2
              rw [hr] at hh
              exact hh
            cases r3 with
            | ok =>
              show AvoidR (walkLoopF schema fn rec tn a rest (i + 1)
                (setField s3 a i (lookupV s3.visited t))).2 r0
              have hp : ¬ lookupV s3.visited t = some r0 := by
                intro hcon
                exact hav3.noCanon t r0 hcon rfl
              exact ih (i + 1) _ tn a (AvoidR_setFieldP hav3 hp)
            | err e =>
              exact hav3
            | panicked msg =>
              exact hav3
            | fuelOut =>
              exact hav3
          | some x =>
            simp only [walkLoopF, hft, if_neg hanon, hlook, hget]
            have hxr : ¬ x = r0 := by
              intro he
              subst he
              have hgv := (getF_eq_some_iff s a i x).mp hget
              obtain ⟨o, ho, hslot⟩ := getVal_some_inv hgv
              exact hav.noField a o i ho hslot
            have hav2 : AvoidR { s with visited := (t, x) :: s.visited } r0 :=
              AvoidR_register hav hxr
            rcases hr : rec x { s with visited := (t, x) :: s.visited } with ⟨r3, s3⟩
            have hav3 : AvoidR s3 r0 := by
              have hh := hrec x _ hav2
              rw [hr] at hh
              exact hh
            cases r3 with
            | ok =>
              show AvoidR (walkLoopF schema fn rec tn a rest (i + 1)
                (setField s3 a i (lookupV s3.visited t))).2 r0
              have hp : ¬ lookupV s3.visited t = some r0 := by
                intro hcon
                exact hav3.noCanon t r0 hcon rfl
              exact ih (i + 1) _ tn a (AvoidR_setFieldP hav3 hp)
            | err e =>
              exact hav3
            | panicked msg =>
              exact hav3
            | fuelOut =>
              exact hav3

theorem walkNode_avoid (schema : Schema) (fn : Visitor) (r0 : Addr) :
    ∀ (fuel : Nat) (a : Addr) (s : WState), AvoidR s r0 →
      AvoidR (walkNode schema fn fuel a s).2 r0 := by
  intro fuel
  induction fuel with
  | zero =>
    intro a s hav
    exact hav
  | succ fuel ihf =>
    intro a s hav
    cases ho : lookupH s.heap a with
    | none =>
      simp only [walkNode, ho]
      exact hav
    | some o =>
      simp only [walkNode, ho]
      rcases hlr : walkLoopF schema fn (walkNode schema fn fuel) o.type a (schema o.type) 0 s
        with ⟨rl, s1⟩
      have hav1 : AvoidR s1 r0 := by
        have hh := walkLoopF_avoid schema fn (walkNode schema fn fuel) r0
          (fun b s' h => ihf b s' h) (schema o.type) 0 s o.type a hav
        rw [hlr] at hh
        exact hh
      cases rl with
      | ok =>
        cases hfa : fn a with
        | some e =>
          simp only [hfa]
          exact AvoidR_logAppend hav1
        | none =>
          simp only [hfa]
          exact AvoidR_logAppend hav1
      | err e =>
        exact hav1
      | panicked msg =>
        exact hav1
      | fuelOut =>
        exact hav1

theorem AvoidR_init {heap : Heap} {n r0 : Addr}
    (hno : noPtrTo heap r0 = true) (hlt : r0 < n) : AvoidR (mkInit heap n) r0 where
  noField := fun a o i hl => by
    intro hslot
    have hmem := mem_of_lookupH hl
    have he := List.all_eq_true.mp hno _ hmem
    have hv := List.all_eq_true.mp he _ (List.getElem?_mem hslot)
    simp at hv
  noCanon := fun t c hc => by cases hc
  lt := hlt

/-! ## Normal completion registers every reachable capability type -/

theorem walk_ok_reach_registered (schema : Schema) (fn : Visitor) (fuel : Nat) (root : Addr)
    (heap : Heap) (n : Addr) (hinit : initOK schema heap n = true)
    (hok : (Walk schema fn fuel root (mkInit heap n)).1 = .ok)
    (t0 : TypeId) (o0 : Obj) (hroot : lookupH heap root = some o0) (ht0 : o0.type = t0) :
    ∀ u, ReachType schema t0 u →
      ∃ c, lookupV (Walk schema fn fuel root (mkInit heap n)).2.visited u = some c := by
  have P := Walk_spec schema fn fuel root heap n hinit
  obtain ⟨nv, l, hv, hl, hclean, hokfn, hcnt, herr, hclo⟩ := P.grow
  have hvnil : (Walk schema fn fuel root (mkInit heap n)).2.visited = nv := by
    rw [hv]
    simp [mkInit]
  have hown := P.ownClosure hok root (List.mem_singleton_self root) o0 hroot
  rw [ht0] at hown
  intro u hu
  induction hu with
  | base f u hf hft =>
    exact hown f hf u hft
  | step t f u hreach hf hft ihr =>
    obtain ⟨c, hc⟩ := ihr
    have hmemk : t ∈ nv.map Prod.fst := by
      have hmem := lookupV_mem hc
      rw [hvnil] at hmem
      exact List.mem_map.mpr ⟨(t, c), hmem, rfl⟩
    exact hclo hok t hmemk f hf u hft

/-- Core of the structural-rejection claims: a schema with a rejected
field on the root type or on any type reachable through capability
pointers makes `Walk` panic with a message naming an offending field and
its struct, provided the visitor itself never fails and the fuel covers
the recursion depth; no node whose type declares a rejected field is ever
visited. -/
theorem walk_bad_panics (schema : Schema) (fn : Visitor) (T : Finset TypeId)
    (hT : TargetsIn schema T) (fuel : Nat) (root : Addr) (heap : Heap) (n : Addr)
    (hinit : initOK schema heap n = true)
    (hfn : ∀ b, fn b = none) (hfuel : T.card < fuel)
    (t0 : TypeId) (o0 : Obj) (hroot : lookupH heap root = some o0) (ht0 : o0.type = t0)
    (u : TypeId) (f : StructField) (hfu : f ∈ schema u) (hbad : BadFld f)
    (hu : u = t0 ∨ ReachType schema t0 u) :
    ∃ msg, (Walk schema fn fuel root (mkInit heap n)).1 = .panicked msg ∧
      NamedPanic schema msg ∧
      ∀ b ∈ (Walk schema fn fuel root (mkInit heap n)).2.visitLog,
        CleanAt schema (Walk schema fn fuel root (mkInit heap n)).2 b := by
  have P := Walk_spec schema fn fuel root heap n hinit
  obtain ⟨nv, l, hv, hl, hclean, hokfn, hcnt, herr, hclo⟩ := P.grow
  have hvnil : (Walk schema fn fuel root (mkInit heap n)).2.visited = nv := by
    rw [hv]
    simp [mkInit]
  have hlall : ∀ b ∈ (Walk schema fn fuel root (mkInit heap n)).2.visitLog, b ∈ l := by
    intro b hb
    rw [hl] at hb
    simpa [mkInit] using hb
  cases hr : (Walk schema fn fuel root (mkInit heap n)).1 with
  | ok =>
    exfalso
    rcases hu with hut | hur
    · subst hut
      have hcnt1 := hcnt hr root
      have hrootl : root ∈ l := by
        apply List.count_pos_iff.mp
        rw [hcnt1]
        have hone : List.count root [root] = 1 := by simp
        omega
      have hcl := hclean root hrootl
      obtain ⟨o', ho', hot', _⟩ := P.ev.heapPres root o0 hroot
      have hcf := hcl o' ho' f (by rw [hot', ht0]; exact hfu)
      exact BadFld_not_clean hbad hcf
    · obtain ⟨c, hc⟩ := walk_ok_reach_registered schema fn fuel root heap n hinit hr
        t0 o0 hroot ht0 u hur
      have hcnt1 := hcnt hr c
      have hcmem : c ∈ nv.map Prod.snd := by
        have hmem := lookupV_mem hc
        rw [hvnil] at hmem
        exact List.mem_map.mpr ⟨(u, c), hmem, rfl⟩
      have hcl2 : c ∈ l := by
        apply List.count_pos_iff.mp
        rw [hcnt1]
        have hpos := List.count_pos_iff.mpr hcmem
        omega
      have hclean2 := hclean c hcl2
      obtain ⟨oc, hoc, hoct⟩ := P.inv.vtyped u c hc
      have hcf := hclean2 oc hoc f (by rw [hoct]; exact hfu)
      exact BadFld_not_clean hbad hcf
  | err e =>
    exfalso
    obtain ⟨L, N, _, hfnN, _⟩ := herr e hr
    rw [hfn N] at hfnN
    cases hfnN
  | panicked msg =>
    refine ⟨msg, rfl, ?_, ?_⟩
    · refine P.panicNamed msg hr ?_
      intro b hb
      rw [List.mem_singleton] at hb
      subst hb
      exact ⟨o0, hroot⟩
    · intro b hb
      exact hclean b (hlall b hb)
  | fuelOut =>
    exfalso
    have hmeq : measV T (mkInit heap n) = T.card := by
      unfold measV
      congr 1
      apply Finset.filter_true_of_mem
      intro x _
      simp [mkInit]
    have hnf := walkNode_no_fuelOut schema fn T hT fuel root (mkInit heap n)
      (WInv_of_initOK hinit) (by rw [hmeq]; exact hfuel)
    exact hnf hr

/-! ## Concrete counterexample and scenario theorems -/

/-- C2, counterexample: in the spec's concrete scenario (A nil first, B
pre-set to `X` at address 1), the claim demands that both fields reference
`X` after `Walk`. In fact `Walk` completes, but both fields reference a
freshly allocated instance at address 2 — not `X` — and the visitor is
called on the fresh node (address 2) and the root, never on `X`'s node. -/
theorem claim_C2_counterexample :
    (Walk schAB visNone 10 0 stABnilX).1 = .ok ∧
    getF (Walk schAB visNone 10 0 stABnilX).2 0 0 = some 2 ∧
    getF (Walk schAB visNone 10 0 stABnilX).2 0 1 = some 2 ∧
    ¬ getF (Walk schAB visNone 10 0 stABnilX).2 0 1 = some 1 ∧
    (Walk schAB visNone 10 0 stABnilX).2.visitLog = [2, 0] := by
  decide

/-- C2, amended claim at the concrete scenario: a pre-existing instance
wins only when its field is encountered first. With `A` pre-set to `X`
(address 1) and `B` nil, `Walk` completes, both `A` and `B` reference `X`,
and the visitor is called exactly once with `X`'s node and exactly once
with the root. -/
theorem claim_C2_amended_holds :
    (Walk schAB visNone 10 0 stABXnil).1 = .ok ∧
    getF (Walk schAB visNone 10 0 stABXnil).2 0 0 = some 1 ∧
    getF (Walk schAB visNone 10 0 stABXnil).2 0 1 = some 1 ∧
    (Walk schAB visNone 10 0 stABXnil).2.visitLog = [1, 0] ∧
    ((Walk schAB visNone 10 0 stABXnil).2.visitLog.count 1 = 1 ∧
      (Walk schAB visNone 10 0 stABXnil).2.visitLog.count 0 = 1) := by
  decide

/-- C3, counterexample: on `schByVal` the by-value capability field `b` is
rejected with the Go panic message, but only after the visitor has already
run on the node created for the earlier field `a` — the rejection does NOT
occur before every visitor callback, contrary to the claim. -/
theorem claim_C3_counterexample :
    (Walk schByVal visNone 10 0 stByVal).1 = .panicked (ptrMsg "b" 0) ∧
    (Walk schByVal visNone 10 0 stByVal).2.visitLog = [1] ∧
    ¬ (Walk schByVal visNone 10 0 stByVal).2.visitLog = [] := by
  decide

/-- C4, counterexample: `schAnon` contains an anonymously embedded
capability field `e` on the (reachable) root, yet with a visitor that
fails on the node created for the earlier field `a`, `Walk` returns the
recoverable error 7 instead of aborting with a panic. -/
theorem claim_C4_counterexample :
    (Walk schAnon visErr1 10 0 stAnon).1 = .err 7 ∧
    ∀ msg, ¬ (Walk schAnon visErr1 10 0 stAnon).1 = .panicked msg := by
  have h : (Walk schAnon visErr1 10 0 stAnon).1 = .err 7 := by decide
  exact ⟨h, fun msg hmsg => by rw [h] at hmsg; exact WRes.noConfusion hmsg⟩

/-- C6, counterexample: in `schSelf` with the root's field pre-set to the
root itself, `Walk` completes with exactly one distinct capability type
(struct 0, canonical instance = the root), but the visitor runs twice on
that type's canonical instance — not exactly once per distinct type. -/
theorem claim_C6_counterexample :
    (Walk schSelf visNone 10 0 stSelf).1 = .ok ∧
    lookupV (Walk schSelf visNone 10 0 stSelf).2.visited 0 = some 0 ∧
    (Walk schSelf visNone 10 0 stSelf).2.visitLog.count 0 = 2 := by
  decide

/-- C10, counterexample: the root CAN be entered into the visited registry:
with the root's field pre-set to the root itself, the registry maps struct
type 0 to the root's own address after `Walk`. -/
theorem claim_C10_counterexample :
    (Walk schSelf visNone 10 0 stSelf).2.visited = [(0, 0)] ∧
    lookupV (Walk schSelf visNone 10 0 stSelf).2.visited 0 = some 0 := by
  decide

/-! ## Claim theorems -/

/-- C1 (sharing invariant): for every schema and well-formed initial heap
on which `Walk` runs, any two capability pointer fields of the same
declared target type `t`, located on any two visited nodes of the walked
graph, both hold the registry's canonical instance of `t` — hence the
identical instance. -/
theorem claim_C1_sharing (schema : Schema) (fn : Visitor) (fuel : Nat) (root : Addr)
    (heap : Heap) (n : Addr) (hinit : initOK schema heap n = true)
    (hok : (Walk schema fn fuel root (mkInit heap n)).1 = .ok)
    (a1 a2 : Addr) (o1 o2 : Obj) (i1 i2 : Nat) (f1 f2 : StructField) (t : TypeId)
    (h1 : a1 ∈ (Walk schema fn fuel root (mkInit heap n)).2.visitLog)
    (h2 : a2 ∈ (Walk schema fn fuel root (mkInit heap n)).2.visitLog)
    (ho1 : lookupH (Walk schema fn fuel root (mkInit heap n)).2.heap a1 = some o1)
    (ho2 : lookupH (Walk schema fn fuel root (mkInit heap n)).2.heap a2 = some o2)
    (hf1 : (schema o1.type)[i1]? = some f1) (hft1 : f1.ftype = .capPtr t)
    (hf2 : (schema o2.type)[i2]? = some f2) (hft2 : f2.ftype = .capPtr t) :
    ∃ c, lookupV (Walk schema fn fuel root (mkInit heap n)).2.visited t = some c ∧
      getF (Walk schema fn fuel root (mkInit heap n)).2 a1 i1 = some c ∧
      getF (Walk schema fn fuel root (mkInit heap n)).2 a2 i2 = some c := by
  have P := Walk_spec schema fn fuel root heap n hinit
  obtain ⟨c1, hc1, hs1⟩ := P.inv.fieldsOK a1 h1 o1 ho1 i1 f1 t hf1 hft1
  obtain ⟨c2, hc2, hs2⟩ := P.inv.fieldsOK a2 h2 o2 ho2 i2 f2 t hf2 hft2
  have hcc : c2 = c1 := Option.some.inj (hc2.symm.trans hc1)
  subst hcc
  refine ⟨c2, hc1, ?_, ?_⟩
  · rw [getF_eq_some_iff, getVal_lookup i1 ho1]
    exact hs1
  · rw [getF_eq_some_iff, getVal_lookup i2 ho2]
    exact hs2

/-- C3 (amended): a schema holding a capability type by value on the root
type or on any type reachable through capability pointer fields makes
`Walk` — run with a never-failing visitor; an earlier visitor error
would abort the walk first, as in C4 — panic with a Go message naming an
offending field and its enclosing struct, and every node on which the
visitor has run had all of its capability fields already wired to the
registry's canonical instances (and its struct type declares no rejected
field). The rejection need not precede every visitor invocation: a
capability pointer field declared before the by-value field causes a
full recursive walk of that branch, visitor calls included, before the
by-value field is examined. -/
theorem claim_C3_value_field_rejected (schema : Schema) (fn : Visitor) (T : Finset TypeId)
    (hT : TargetsIn schema T) (fuel : Nat) (root : Addr) (heap : Heap) (n : Addr)
    (hinit : initOK schema heap n = true)
    (hfn : ∀ b, fn b = none) (hfuel : T.card < fuel)
    (t0 : TypeId) (o0 : Obj) (hroot : lookupH heap root = some o0) (ht0 : o0.type = t0)
    (u : TypeId) (f : StructField) (hfu : f ∈ schema u) (hfv : f.ftype = .byValue)
    (hu : u = t0 ∨ ReachType schema t0 u) :
    ∃ msg, (Walk schema fn fuel root (mkInit heap n)).1 = .panicked msg ∧
      NamedPanic schema msg ∧
      (∀ b ∈ (Walk schema fn fuel root (mkInit heap n)).2.visitLog,
        CleanAt schema (Walk schema fn fuel root (mkInit heap n)).2 b) ∧
      (∀ b ∈ (Walk schema fn fuel root (mkInit heap n)).2.visitLog, ∀ (o : Obj),
        lookupH (Walk schema fn fuel root (mkInit heap n)).2.heap b = some o →
        ∀ (i : Nat) (f' : StructField) (t : TypeId),
        (schema o.type)[i]? = some f' → f'.ftype = .capPtr t →
        ∃ c, lookupV (Walk schema fn fuel root (mkInit heap n)).2.visited t = some c ∧
          getF (Walk schema fn fuel root (mkInit heap n)).2 b i = some c) := by
  obtain ⟨msg, hmsg, hnp, hclean⟩ := walk_bad_panics schema fn T hT fuel root heap n hinit
    hfn hfuel t0 o0 hroot ht0 u f hfu (Or.inl hfv) hu
  refine ⟨msg, hmsg, hnp, hclean, ?_⟩
  intro b hb o ho i f' t hf' hft'
  have P := Walk_spec schema fn fuel root heap n hinit
  obtain ⟨c, hc, hs⟩ := P.inv.fieldsOK b hb o ho i f' t hf' hft'
  refine ⟨c, hc, ?_⟩
  rw [getF_eq_some_iff, getVal_lookup i ho]
  exact hs

/-- C4 (amended): a schema with an anonymously embedded capability
pointer field, or a non-pointer field whose type implements the
capability, on the root type or on any reachable type, makes `Walk` abort
fatally with a panic whose message names an offending field and its
enclosing struct — provided the visitor never fails (with a failing
visitor, `Walk` can instead return that visitor's recoverable error
before the offending field is reached) and the fuel covers the recursion
depth. -/
theorem claim_C4_anon_or_nonptr_rejected (schema : Schema) (fn : Visitor)
    (T : Finset TypeId) (hT : TargetsIn schema T) (fuel : Nat) (root : Addr)
    (heap : Heap) (n : Addr) (hinit : initOK schema heap n = true)
    (hfn : ∀ b, fn b = none) (hfuel : T.card < fuel)
    (t0 : TypeId) (o0 : Obj) (hroot : lookupH heap root = some o0) (ht0 : o0.type = t0)
    (u : TypeId) (f : StructField) (hfu : f ∈ schema u)
    (hbad : f.ftype = .ifaceKind ∨ (∃ v, f.ftype = .capPtr v) ∧ f.anonymous = true)
    (hu : u = t0 ∨ ReachType schema t0 u) :
    ∃ msg, (Walk schema fn fuel root (mkInit heap n)).1 = .panicked msg ∧
      NamedPanic schema msg := by
  have hbad' : BadFld f := by
    rcases hbad with h | ⟨⟨v, hv⟩, ha⟩
    · exact Or.inr (Or.inl h)
    · exact Or.inr (Or.inr ⟨v, hv, ha⟩)
  obtain ⟨msg, hmsg, hnp, _⟩ := walk_bad_panics schema fn T hT fuel root heap n hinit
    hfn hfuel t0 o0 hroot ht0 u f hfu hbad' hu
  exact ⟨msg, hmsg, hnp⟩

/-- C5 (early exit on visitor error): whenever `Walk` returns a visitor
error `e`, the visit log ends exactly at the node `N` whose visitor
returned `some e` — no node scheduled after `N` was visited — every
earlier visited node's visitor returned no error, and the error value is
returned unchanged. Moreover, in the event-instrumented run `WalkT`
(whose result and final state provably coincide with `Walk`'s, stated
here as part of the equation), the failing visitor call on `N` is the
very last event of the whole run: no field is wired and no node is
visited after the error propagation begins. -/
theorem claim_C5_early_exit (schema : Schema) (fn : Visitor) (fuel : Nat) (root : Addr)
    (heap : Heap) (n : Addr) (hinit : initOK schema heap n = true)
    (e : Nat) (herr : (Walk schema fn fuel root (mkInit heap n)).1 = .err e) :
    ∃ L N tr, (Walk schema fn fuel root (mkInit heap n)).2.visitLog = L ++ [N] ∧
      fn N = some e ∧ (∀ b ∈ L, fn b = none) ∧
      WalkT schema fn fuel root (mkInit heap n) =
        ((.err e, (Walk schema fn fuel root (mkInit heap n)).2), tr ++ [.visit N]) ∧
      visitsOf tr = L := by
  have P := Walk_spec schema fn fuel root heap n hinit
  obtain ⟨nv, l, hv, hl, _, _, _, herrc, _⟩ := P.grow
  obtain ⟨L, N, hlN, hfnN, hLn⟩ := herrc e herr
  rw [hlN] at hl
  have hlog : (Walk schema fn fuel root (mkInit heap n)).2.visitLog = L ++ [N] := by
    rw [hl]
    simp [mkInit]
  obtain ⟨hfst, hlg, htr⟩ := WalkT_spec schema fn fuel root (mkInit heap n)
  have herrT : (WalkT schema fn fuel root (mkInit heap n)).1.1 = .err e := by
    rw [hfst]
    exact herr
  obtain ⟨tr, N', htre, hfnN'⟩ := htr e herrT
  have hvis : visitsOf tr ++ [N'] = L ++ [N] := by
    have h1 : visitsOf (WalkT schema fn fuel root (mkInit heap n)).2 = L ++ [N] := by
      rw [← hlg, hfst]
      exact hlog
    rw [htre] at h1
    rw [← h1]
    simp
  obtain ⟨hvtr, hNN⟩ := List.append_inj' hvis rfl
  have hN : N' = N := by
    injection hNN with h
  subst hN
  refine ⟨L, N', tr, hlog, hfnN, hLn, ?_, hvtr⟩
  have hWeq : Walk schema fn fuel root (mkInit heap n) =
      (.err e, (Walk schema fn fuel root (mkInit heap n)).2) := by
    rw [← herr]
  calc WalkT schema fn fuel root (mkInit heap n)
      = ((WalkT schema fn fuel root (mkInit heap n)).1,
          (WalkT schema fn fuel root (mkInit heap n)).2) := rfl
    _ = ((.err e, (Walk schema fn fuel root (mkInit heap n)).2), tr ++ [.visit N']) := by
        rw [hfst, htre, ← hWeq]

/-- C6 (amended single instantiation): on normal completion, the visitor
runs exactly once on the canonical instance of every registered
capability type — except that a canonical instance equal to the root
itself (possible only when a pre-existing field referenced the root) is
visited twice: once as the root and once as the shared instance. -/
theorem claim_C6_visit_count (schema : Schema) (fn : Visitor) (fuel : Nat) (root : Addr)
    (heap : Heap) (n : Addr) (hinit : initOK schema heap n = true)
    (hok : (Walk schema fn fuel root (mkInit heap n)).1 = .ok)
    (t : TypeId) (c : Addr)
    (hc : lookupV (Walk schema fn fuel root (mkInit heap n)).2.visited t = some c) :
    (Walk schema fn fuel root (mkInit heap n)).2.visitLog.count c =
      if c = root then 2 else 1 := by
  have P := Walk_spec schema fn fuel root heap n hinit
  obtain ⟨nv, l, hv, hl, _, _, hcnt, _, _⟩ := P.grow
  have hvnil : (Walk schema fn fuel root (mkInit heap n)).2.visited = nv := by
    rw [hv]
    simp [mkInit]
  have hlog : (Walk schema fn fuel root (mkInit heap n)).2.visitLog = l := by
    rw [hl]
    simp [mkInit]
  have hcl := hcnt hok c
  have hsnd : (nv.map Prod.snd).count c = 1 := by
    apply List.count_eq_one_of_mem
    · have hnd := visited_snd_nodup P.inv
      rw [hvnil] at hnd
      exact hnd
    · have hmem := lookupV_mem hc
      rw [hvnil] at hmem
      exact List.mem_map.mpr ⟨(t, c), hmem, rfl⟩
  rw [hlog, hcl, hsnd]
  by_cases hcr : c = root
  · subst hcr
    simp [List.count_cons]
  · simp [List.count_cons, List.count_nil, hcr]

/-- C8 (cycle-safe termination): for every schema whose capability
pointer targets lie in a finite set `T` of types, any fuel exceeding
`T.card` is never exhausted — the walker recurses into a capability type
only on first registration, so the recursion depth is bounded by the
number of capability types even for cyclic type graphs. -/
theorem claim_C8_termination (schema : Schema) (fn : Visitor) (T : Finset TypeId)
    (hT : TargetsIn schema T) (fuel : Nat) (root : Addr) (heap : Heap) (n : Addr)
    (hinit : initOK schema heap n = true) (hfuel : T.card < fuel) :
    ¬ (Walk schema fn fuel root (mkInit heap n)).1 = .fuelOut := by
  have hmeq : measV T (mkInit heap n) = T.card := by
    unfold measV
    congr 1
    apply Finset.filter_true_of_mem
    intro x _
    simp [mkInit]
  exact walkNode_no_fuelOut schema fn T hT fuel root (mkInit heap n)
    (WInv_of_initOK hinit) (by rw [hmeq]; exact hfuel)

/-- C9 (frame on ordinary fields): a field whose declared type does not
implement the capability (nor does a pointer to it) is left untouched by
`Walk`, whatever the result — including nested struct-valued data fields,
which are skipped rather than descended into. -/
theorem claim_C9_frame (schema : Schema) (fn : Visitor) (fuel : Nat) (root : Addr)
    (heap : Heap) (n : Addr) (hinit : initOK schema heap n = true)
    (b : Addr) (o : Obj) (i : Nat) (f : StructField)
    (hb : lookupH heap b = some o)
    (hf : (schema o.type)[i]? = some f) (hp : f.ftype = .plain) :
    getVal (Walk schema fn fuel root (mkInit heap n)).2 b i = getVal (mkInit heap n) b i :=
  (Walk_spec schema fn fuel root heap n hinit).ev.fieldPlain b o i f hb hf
    (fun u hu => by rw [hp] at hu; cases hu)

/-- C10 (amended): registry entries originate only from freshly allocated
instances or from pre-existing field values; hence if no pre-existing
field of the initial heap references the root and the root lies below the
allocation frontier, the root address never enters the visited registry
(the counterexample shows it can when a field is pre-seeded with the root
itself). -/
theorem claim_C10_root_not_registered (schema : Schema) (fn : Visitor) (fuel : Nat)
    (root : Addr) (heap : Heap) (n : Addr)
    (hno : noPtrTo heap root = true) (hlt : root < n) (t : TypeId) :
    ¬ lookupV (Walk schema fn fuel root (mkInit heap n)).2.visited t = some root := by
  intro hc
  have hav := walkNode_avoid schema fn root fuel root (mkInit heap n) (AvoidR_init hno hlt)
  exact hav.noCanon t root hc rfl

/-! ## Witnesses: the claim theorems applied at concrete inputs -/

theorem schAB_targets : TargetsIn schAB {1} := by
  intro t f hf u hu
  cases t with
  | zero =>
    rcases List.mem_cons.mp hf with rfl | hf1
    · injection hu with h
      subst h
      decide
    · rcases List.mem_cons.mp hf1 with rfl | hf2
      · injection hu with h
        subst h
        decide
      · exact absurd hf2 (List.not_mem_nil f)
  | succ k =>
    simp [schAB] at hf

theorem schByVal_targets : TargetsIn schByVal {1} := by
  intro t f hf u hu
  cases t with
  | zero =>
    rcases List.mem_cons.mp hf with rfl | hf1
    · injection hu with h
      subst h
      decide
    · rcases List.mem_cons.mp hf1 with rfl | hf2
      · cases hu
      · exact absurd hf2 (List.not_mem_nil f)
  | succ k =>
    simp [schByVal] at hf

theorem schAnon_targets : TargetsIn schAnon {1, 2} := by
  intro t f hf u hu
  cases t with
  | zero =>
    rcases List.mem_cons.mp hf with rfl | hf1
    · injection hu with h
      subst h
      decide
    · rcases List.mem_cons.mp hf1 with rfl | hf2
      · injection hu with h
        subst h
        decide
      · exact absurd hf2 (List.not_mem_nil f)
  | succ k =>
    simp [schAnon] at hf

/-- C1 witness: the sharing theorem applied to the concrete two-field
scenario where `A` is pre-set to `X`. -/
theorem claim_C1_sharing_witness :
    initOK schAB stABXnil.heap 2 = true ∧
    (Walk schAB visNone 10 0 (mkInit stABXnil.heap 2)).1 = .ok ∧
    (∃ c, lookupV (Walk schAB visNone 10 0 (mkInit stABXnil.heap 2)).2.visited 1 = some c ∧
      getF (Walk schAB visNone 10 0 (mkInit stABXnil.heap 2)).2 0 0 = some c ∧
      getF (Walk schAB visNone 10 0 (mkInit stABXnil.heap 2)).2 0 1 = some c) :=
  ⟨by decide, by decide,
    claim_C1_sharing schAB visNone 10 0 stABXnil.heap 2 (by decide) (by decide)
      0 0 ⟨0, [.ptr (some 1), .ptr (some 1)]⟩ ⟨0, [.ptr (some 1), .ptr (some 1)]⟩ 0 1
      ⟨"A", false, .capPtr 1⟩ ⟨"B", false, .capPtr 1⟩ 1
      (by decide) (by decide) (by decide) (by decide) (by decide) (by decide)
      (by decide) (by decide)⟩

/-- C3 witness: the amended rejection theorem applied to the schema with
a by-value capability field on the root. -/
theorem claim_C3_value_field_rejected_witness :
    TargetsIn schByVal {1} ∧ initOK schByVal stByVal.heap 1 = true ∧
    (∀ b, visNone b = none) ∧ ({1} : Finset TypeId).card < 10 ∧
    (⟨"b", false, .byValue⟩ : StructField) ∈ schByVal 0 ∧
    (∃ msg, (Walk schByVal visNone 10 0 (mkInit stByVal.heap 1)).1 = .panicked msg ∧
      NamedPanic schByVal msg ∧
      (∀ b ∈ (Walk schByVal visNone 10 0 (mkInit stByVal.heap 1)).2.visitLog,
        CleanAt schByVal (Walk schByVal visNone 10 0 (mkInit stByVal.heap 1)).2 b) ∧
      (∀ b ∈ (Walk schByVal visNone 10 0 (mkInit stByVal.heap 1)).2.visitLog, ∀ (o : Obj),
        lookupH (Walk schByVal visNone 10 0 (mkInit stByVal.heap 1)).2.heap b = some o →
        ∀ (i : Nat) (f' : StructField) (t : TypeId),
        (schByVal o.type)[i]? = some f' → f'.ftype = .capPtr t →
        ∃ c, lookupV (Walk schByVal visNone 10 0 (mkInit stByVal.heap 1)).2.visited t =
            some c ∧
          getF (Walk schByVal visNone 10 0 (mkInit stByVal.heap 1)).2 b i = some c)) :=
  ⟨schByVal_targets, by decide, fun b => rfl, by decide, by decide,
    claim_C3_value_field_rejected schByVal visNone {1} schByVal_targets 10 0
      stByVal.heap 1 (by decide) (fun b => rfl) (by decide)
      0 ⟨0, [.ptr none, .data 0]⟩ (by decide) (by decide)
      0 ⟨"b", false, .byValue⟩ (by decide) (by decide) (Or.inl rfl)⟩

/-- C4 witness: the amended rejection theorem applied to the schema with
an anonymously embedded capability pointer on the root. -/
theorem claim_C4_anon_or_nonptr_rejected_witness :
    TargetsIn schAnon {1, 2} ∧ initOK schAnon stAnon.heap 1 = true ∧
    (∀ b, visNone b = none) ∧ ({1, 2} : Finset TypeId).card < 10 ∧
    (⟨"e", true, .capPtr 2⟩ : StructField) ∈ schAnon 0 ∧
    (∃ msg, (Walk schAnon visNone 10 0 (mkInit stAnon.heap 1)).1 = .panicked msg ∧
      NamedPanic schAnon msg) :=
  ⟨schAnon_targets, by decide, fun b => rfl, by decide, by decide,
    claim_C4_anon_or_nonptr_rejected schAnon visNone {1, 2} schAnon_targets 10 0
      stAnon.heap 1 (by decide) (fun b => rfl) (by decide)
      0 ⟨0, [.ptr none, .ptr none]⟩ (by decide) (by decide)
      0 ⟨"e", true, .capPtr 2⟩ (by decide) (Or.inr ⟨⟨2, rfl⟩, rfl⟩) (Or.inl rfl)⟩

/-- C5 witness: the early-exit theorem applied to the run in which the
visitor fails with error 7 on the first visited node. -/
theorem claim_C5_early_exit_witness :
    initOK schAnon stAnon.heap 1 = true ∧
    (Walk schAnon visErr1 10 0 (mkInit stAnon.heap 1)).1 = .err 7 ∧
    (∃ L N tr, (Walk schAnon visErr1 10 0 (mkInit stAnon.heap 1)).2.visitLog = L ++ [N] ∧
      visErr1 N = some 7 ∧ (∀ b ∈ L, visErr1 b = none) ∧
      WalkT schAnon visErr1 10 0 (mkInit stAnon.heap 1) =
        ((.err 7, (Walk schAnon visErr1 10 0 (mkInit stAnon.heap 1)).2),
          tr ++ [.visit N]) ∧
      visitsOf tr = L) :=
  ⟨by decide, by decide,
    claim_C5_early_exit schAnon visErr1 10 0 stAnon.heap 1 (by decide) 7 (by decide)⟩

/-- C6 witness: the amended visit-count theorem applied to the two-field
scenario: the canonical instance (address 1, not the root) is visited
exactly once. -/
theorem claim_C6_visit_count_witness :
    initOK schAB stABXnil.heap 2 = true ∧
    (Walk schAB visNone 10 0 (mkInit stABXnil.heap 2)).1 = .ok ∧
    lookupV (Walk schAB visNone 10 0 (mkInit stABXnil.heap 2)).2.visited 1 = some 1 ∧
    (Walk schAB visNone 10 0 (mkInit stABXnil.heap 2)).2.visitLog.count 1 =
      if (1 : Addr) = 0 then 2 else 1 :=
  ⟨by decide, by decide, by decide,
    claim_C6_visit_count schAB visNone 10 0 stABXnil.heap 2 (by decide) (by decide)
      1 1 (by decide)⟩

/-- C8 witness: the termination theorem applied to the two-field
scenario with the target set of capability types. -/
theorem claim_C8_termination_witness :
    TargetsIn schAB {1} ∧ initOK schAB stABXnil.heap 2 = true ∧
    ({1} : Finset TypeId).card < 10 ∧
    ¬ (Walk schAB visNone 10 0 (mkInit stABXnil.heap 2)).1 = .fuelOut :=
  ⟨schAB_targets, by decide, by decide,
    claim_C8_termination schAB visNone {1} schAB_targets 10 0 stABXnil.heap 2
      (by decide) (by decide)⟩

/-- C9 witness: the frame theorem applied to the schema with an ordinary
data field: the field still holds 42 after the walk. -/
theorem claim_C9_frame_witness :
    initOK schPlain stPlain.heap 1 = true ∧
    getVal (Walk schPlain visNone 10 0 (mkInit stPlain.heap 1)).2 0 0 =
      getVal (mkInit stPlain.heap 1) 0 0 :=
  ⟨by decide,
    claim_C9_frame schPlain visNone 10 0 stPlain.heap 1 (by decide)
      0 ⟨0, [.data 42, .ptr none]⟩ 0 ⟨"d", false, .plain⟩
      (by decide) (by decide) (by decide)⟩

/-- C10 witness: the amended registry theorem applied to the two-field
scenario in which no initial field references the root. -/
theorem claim_C10_root_not_registered_witness :
    noPtrTo stABnilX.heap 0 = true ∧ (0 : Addr) < 2 ∧
    ¬ lookupV (Walk schAB visNone 10 0 (mkInit stABnilX.heap 2)).2.visited 1 = some 0 :=
  ⟨by decide, by decide,
    claim_C10_root_not_registered schAB visNone 10 0 stABnilX.heap 2
      (by decide) (by decide) 1⟩

end GovmomiWalk
